import Mathlib

/-!
Verification of the queue state log of `git-queue`.

This file is a shallow embedding of the core of the repository:

* `src/git-queue/src/queue/log.rs` — `QueueState`, `LogEntryV1`, `LogOid`
  and the log-entry commit machinery (`new`, `pop`, `push`, `rename_patch`,
  `upsert_patch`, `next`, `commit`, `create_next`, `current_for_queue`,
  `build_tree`, the serde serializer and deserializer for the metadata blob);
* `src/git-queue/src/queue.rs` — the `Queue` façade (`for_queue`, `current`,
  `list`);
* `src/git-queue/src/error.rs` — the error enum.

The Git repository service (libgit2) is modelled by an explicit `GitRepo`
value: a reference map, an object map, and the `HEAD` reference.  Stateful
operations take and return the repository value; fallible operations return
`Except`.  The Rust `HashMap` for patches is modelled as an association list
whose order stands for the map's (unspecified but per-value stable) iteration
order; operations that do not depend on the order are proved so, and the one
claim that does depend on it (byte determinism of serialization) is settled
by exhibiting two map-equal association lists with different orders.
-/

set_option linter.unusedVariables false

namespace GitQueue

/-- Model of `git2::Oid`: the canonical 40-character lowercase hex string the
oid displays as.  Handles allocated for freshly written objects use a
non-hex marker string; they are never re-parsed. -/
structure Oid where
  hex : String
deriving DecidableEq, Repr

/-- Model of `git2::ErrorCode` (only the codes the embedded code inspects). -/
inductive GitErrorCode where
  | notFound
  | alreadyExists
  | invalidSpec
  | unbornBranch
  | modified
  | invalid
  | generic
deriving DecidableEq, Repr

/-- Model of `git_queue::error::Error` (src/git-queue/src/error.rs).  The
`Git` variant keeps only the error code, which is all the embedded callers
inspect. -/
inductive Error where
  | NotInRepository
  | NotInitialized
  | Inconsistency (area : String)
  | InvalidName
  | NonUtf8
  | AlreadyExists (what : String)
  | Git (code : GitErrorCode)
deriving DecidableEq, Repr

/-! ### Association-list model of `HashMap<String, LogOid>` -/

/-- Lookup in the association list modelling the patches `HashMap`. -/
def mapLookup (m : List (String × Oid)) (k : String) : Option Oid :=
  (m.find? (fun p => p.1 == k)).map (·.2)

/-- Model of `HashMap::contains_key`. -/
def mapHas (m : List (String × Oid)) (k : String) : Bool :=
  (mapLookup m k).isSome

/-- Model of the panicking `HashMap` `Index` operator; the default value is
never reached under the queue-state invariant, which guarantees the key is
present. -/
def mapIndex (m : List (String × Oid)) (k : String) : Oid :=
  (mapLookup m k).getD ⟨""⟩

/-- Model of `HashMap::remove` (unique keys: first binding removed). -/
def mapRemove (m : List (String × Oid)) (k : String) : List (String × Oid) :=
  m.eraseP (fun p => p.1 == k)

/-- Model of `HashMap::insert`: replace the binding in place when the key is
present, otherwise add a binding. -/
def mapInsert (m : List (String × Oid)) (k : String) (v : Oid) : List (String × Oid) :=
  if mapHas m k then m.map (fun p => if p.1 == k then (k, v) else p)
  else m ++ [(k, v)]

/-! ### The version-1 log entry (struct `LogEntryV1` in log.rs) -/

/-- Model of `LogEntryV1`, field for field and in declaration order
(the serde derive serializes fields in this order). -/
@[ext]
structure LogEntryV1 where
  message : String
  previous : Option Oid
  head : Oid
  base : Oid
  base_name : String
  applied : List String
  unapplied : List String
  patches : List (String × Oid)
deriving DecidableEq, Repr

/-- Model of `QueueState`: the (possibly not yet committed) state value. -/
@[ext]
structure QueueState where
  oid : Option Oid
  gitref_name : String
  entry : LogEntryV1
deriving DecidableEq, Repr

namespace QueueState

/-- Model of `QueueState::head`. -/
def head (s : QueueState) : Oid := s.entry.head

/-- Model of `QueueState::has_patch`. -/
def has_patch (s : QueueState) (name : String) : Bool :=
  mapHas s.entry.patches name

/-- Model of `QueueState::patches_num`. -/
def patches_num (s : QueueState) : Nat := s.entry.patches.length

/-- Model of `QueueState::pop`.  `Vec::pop` removes the last element; the
moved patch is appended at the end of `unapplied`; the head becomes the new
last applied patch's commit, or `get_parent` of the popped patch's commit
when no applied patch remains. -/
def pop (s : QueueState) (get_parent : Oid → Except Error Oid) :
    Except Error QueueState :=
  match s.entry.applied.getLast? with
  | none => .ok s
  | some patch =>
    let applied := s.entry.applied.dropLast
    let patch_oid := mapIndex s.entry.patches patch
    let unapplied := s.entry.unapplied ++ [patch]
    match applied.getLast? with
    | some p =>
      .ok { s with entry := { s.entry with
              applied := applied, unapplied := unapplied,
              head := mapIndex s.entry.patches p } }
    | none => do
      let h ← get_parent patch_oid
      .ok { s with entry := { s.entry with
              applied := applied, unapplied := unapplied, head := h } }

/-- Model of `QueueState::push`: move the last unapplied patch to the end of
`applied` and point the head at its commit; no-op when `unapplied` is empty. -/
def push (s : QueueState) : QueueState :=
  match s.entry.unapplied.getLast? with
  | none => s
  | some patch =>
    { s with entry := { s.entry with
        head := mapIndex s.entry.patches patch,
        applied := s.entry.applied ++ [patch],
        unapplied := s.entry.unapplied.dropLast } }

/-- Replace the first occurrence of a name in a list (models the
`position` + index-assignment sequence in `rename_patch`). -/
def replaceFirst : List String → String → String → List String
  | [], _, _ => []
  | x :: xs, o, n => if x = o then n :: xs else x :: replaceFirst xs o n

/-- Model of `QueueState::rename_patch` after its `assert!(has_patch(old))`:
move the binding in `patches`, then rewrite the name inside `applied` if it
occurs there, else inside `unapplied`. -/
def rename_patch (s : QueueState) (old_name new_name : String) : QueueState :=
  let patch_oid := mapIndex s.entry.patches old_name
  let patches := mapInsert (mapRemove s.entry.patches old_name) new_name patch_oid
  let lists :=
    if old_name ∈ s.entry.applied then
      (replaceFirst s.entry.applied old_name new_name, s.entry.unapplied)
    else
      (s.entry.applied, replaceFirst s.entry.unapplied old_name new_name)
  { s with entry := { s.entry with
      patches := patches, applied := lists.1, unapplied := lists.2 } }

/-- Model of `QueueState::upsert_patch`: a new name is appended to `applied`;
the binding in `patches` is always updated. -/
def upsert_patch (s : QueueState) (patch : String) (commit : Oid) : QueueState :=
  let applied :=
    if has_patch s patch then s.entry.applied else s.entry.applied ++ [patch]
  { s with entry := { s.entry with
      applied := applied, patches := mapInsert s.entry.patches patch commit } }

/-- Model of `QueueState::next`: an uncommitted deep copy with `previous`
pointing at the committed parent state.  (The Rust `assert!` that `self` is
committed is not modelled; `commit` rejects a `previous`-less state.) -/
def next (s : QueueState) (message : String) : QueueState :=
  { oid := none
    gitref_name := s.gitref_name
    entry :=
      { message := message
        head := s.entry.head
        base := s.entry.base
        base_name := s.entry.base_name
        previous := s.oid
        applied := s.entry.applied
        unapplied := s.entry.unapplied
        patches := s.entry.patches } }

end QueueState

/-! ### The §3 invariants -/

/-- The invariant exactly as claim C6 states it: `applied` and `unapplied`
are disjoint and the domain of `patches` is their union. -/
def specInv (e : LogEntryV1) : Prop :=
  (∀ n ∈ e.applied, n ∉ e.unapplied)
  ∧ (∀ n ∈ e.patches.map Prod.fst, n ∈ e.applied ∨ n ∈ e.unapplied)
  ∧ (∀ n ∈ e.applied, n ∈ e.patches.map Prod.fst)
  ∧ (∀ n ∈ e.unapplied, n ∈ e.patches.map Prod.fst)

instance (e : LogEntryV1) : Decidable (specInv e) := by
  unfold specInv; infer_instance

/-- The full structural invariant of a queue state: the claimed partition
property together with duplicate-freeness of the three name collections
(implied by `patches` being a map whose domain the two lists partition). -/
def entryInv (e : LogEntryV1) : Prop :=
  specInv e ∧ e.applied.Nodup ∧ e.unapplied.Nodup ∧ (e.patches.map Prod.fst).Nodup

instance (e : LogEntryV1) : Decidable (entryInv e) := by
  unfold entryInv; infer_instance

/-- Invariant 3 of §3: the head is the last applied patch's commit, or the
base when nothing is applied. -/
def headInv (e : LogEntryV1) : Prop :=
  match e.applied.getLast? with
  | none => e.head = e.base
  | some p => mapLookup e.patches p = some e.head

instance (e : LogEntryV1) : Decidable (headInv e) := by
  unfold headInv
  rcases e.applied.getLast? with _ | p
  · infer_instance
  · infer_instance

/-! ### The metadata codec

`LogEntryV1` derives `serde::Serialize`/`Deserialize` and the blob is written
with `serde_json::to_writer_pretty` and read with `serde_json::from_slice`.
`LogOid` serializes as the oid's display form (40 lowercase hex characters)
and deserializes through `git2::Oid::from_str`.

JSON documents are modelled by the `Json` inductive; the textual layer keeps
serde_json's structure (fields in declaration order, `None` encoded as
`null`, maps in iteration order) while eliding pretty-printing whitespace and
string escapes, which the values written by the tool never need. -/

/-- Model of a parsed JSON document (`serde_json::Value`; numbers restricted
to integers, which covers every field the codec can meet). -/
inductive Json where
  | null
  | bool (b : Bool)
  | num (n : Int)
  | str (s : String)
  | arr (elems : List Json)
  | obj (fields : List (String × Json))
deriving Repr

/-- Is the character a hex digit accepted by libgit2's `git__fromhex`? -/
def isHexChar (c : Char) : Bool :=
  ('0' ≤ c ∧ c ≤ '9') ∨ ('a' ≤ c ∧ c ≤ 'f') ∨ ('A' ≤ c ∧ c ≤ 'F')

/-- Lowercase a hex character (display form of `git2::Oid` is lowercase). -/
def lowerHex (c : Char) : Char :=
  if 'A' ≤ c ∧ c ≤ 'F' then Char.ofNat (c.toNat + 32) else c

/-- Model of `git2::Oid::from_str` (libgit2 `git_oid_fromstrn`): rejects the
empty string, more than 40 characters, and non-hex characters; shorter
strings are zero-padded on the right. -/
def Oid.from_str (s : String) : Except String Oid :=
  if s.data.length = 0 then .error "too short"
  else if 40 < s.data.length then .error "too long"
  else if s.data.all isHexChar then
    .ok ⟨⟨s.data.map lowerHex ++ List.replicate (40 - s.data.length) '0'⟩⟩
  else .error "contains invalid characters"

deriving instance DecidableEq for Except

/-- An oid value is well formed when it is its own canonical parse — i.e. it
is exactly what `Oid::from_str` produces. -/
def wfOid (o : Oid) : Prop := Oid.from_str o.hex = .ok o

instance (o : Oid) : Decidable (wfOid o) := by unfold wfOid; infer_instance

/-- Concatenate with separators (used by the serializer model). -/
def sepBy (sep : String) : List String → String
  | [] => ""
  | [x] => x
  | x :: y :: xs => x ++ sep ++ sepBy sep (y :: xs)

/-- A JSON string literal (escaping elided: the tool's values are plain). -/
def jstr (s : String) : String := "\"" ++ s ++ "\""

/-- Serialize `Option<LogOid>`: the serde derive writes `null` for `None`
and the display hex for `Some`. -/
def jprev : Option Oid → String
  | none => "null"
  | some o => jstr o.hex

/-- Serialized form of a `Vec<String>` field. -/
def jarr (xs : List String) : String :=
  "[" ++ sepBy "," (xs.map jstr) ++ "]"

/-- Serialized form of the `HashMap<String, LogOid>` field, written in the
map's iteration order — the order of the modelling association list. -/
def jmap (m : List (String × Oid)) : String :=
  "\x7b" ++ sepBy "," (m.map (fun p => jstr p.1 ++ ":" ++ jstr p.2.hex)) ++ "\x7d"

/-- Model of serializing a `LogEntryV1` with serde_json: the struct fields in
declaration order, the patches map in iteration order.  (Pretty-printer
whitespace is elided; it is a fixed function of the same token sequence and
does not affect any (in)equality of serialized outputs.) -/
def serializeEntry (e : LogEntryV1) : String :=
  "\x7b" ++ jstr "message" ++ ":" ++ jstr e.message
  ++ "," ++ jstr "previous" ++ ":" ++ jprev e.previous
  ++ "," ++ jstr "head" ++ ":" ++ jstr e.head.hex
  ++ "," ++ jstr "base" ++ ":" ++ jstr e.base.hex
  ++ "," ++ jstr "base_name" ++ ":" ++ jstr e.base_name
  ++ "," ++ jstr "applied" ++ ":" ++ jarr e.applied
  ++ "," ++ jstr "unapplied" ++ ":" ++ jarr e.unapplied
  ++ "," ++ jstr "patches" ++ ":" ++ jmap e.patches
  ++ "\x7d"

/-! #### Deserialization (`serde_json::from_slice::<LogEntryV1>`) -/

/-- Field lookup in a JSON object (first binding, as serde reads the first
occurrence of a field). -/
def jLookup (fields : List (String × Json)) (k : String) : Option Json :=
  (fields.find? (fun p => p.1 == k)).map (·.2)

/-- Number of occurrences of a key in a JSON object. -/
def countKey (fields : List (String × Json)) (k : String) : Nat :=
  (fields.filter (fun p => p.1 == k)).length

/-- The struct's field names.  The derive has no `deny_unknown_fields`
attribute, so any key outside this list is ignored; a duplicate of a key in
this list is a deserialization error. -/
def knownKeys : List String :=
  ["message", "previous", "head", "base", "base_name", "applied", "unapplied", "patches"]

/-- Decode a JSON value as a Rust `String`. -/
def asString : Json → Except String String
  | .str s => .ok s
  | _ => .error "expected string"

/-- Decode a JSON value as a `LogOid` (custom `Deserialize`: a string fed to
`Oid::from_str`). -/
def asOid (j : Json) : Except String Oid := do
  let s ← asString j
  Oid.from_str s

/-- Sequential decoding of a list, stopping at the first error (the order in
which serde's `SeqAccess`/`MapAccess` visitors proceed). -/
def mapExcept (f : α → Except ε β) : List α → Except ε (List β)
  | [] => .ok []
  | x :: xs => do
    let y ← f x
    let ys ← mapExcept f xs
    Except.ok (y :: ys)

/-- Decode a JSON value as `Vec<String>`. -/
def asStrList : Json → Except String (List String)
  | .arr xs => mapExcept asString xs
  | _ => .error "expected array"

/-- Decode one binding of the patches map. -/
def asOidPair (p : String × Json) : Except String (String × Oid) := do
  let o ← asOid p.2
  Except.ok (p.1, o)

/-- Decode a JSON value as `HashMap<String, LogOid>` (binding order kept as
one possible iteration order of the resulting map). -/
def asOidMap : Json → Except String (List (String × Oid))
  | .obj fs => mapExcept asOidPair fs
  | _ => .error "expected map"

/-- Decode a required field. -/
def reqField (fields : List (String × Json)) (k : String)
    (f : Json → Except String α) : Except String α :=
  match jLookup fields k with
  | none => .error ("missing field " ++ k)
  | some j => f j

/-- Model of the serde-derived `Deserialize` for `LogEntryV1`: all eight
struct fields are required except `previous` (an `Option`, absent or `null`
gives `None`); unknown fields are skipped; duplicate struct fields fail. -/
def decodeEntry : Json → Except String LogEntryV1
  | .obj fields =>
    if knownKeys.all (fun k => countKey fields k ≤ 1) then do
      let message ← reqField fields "message" asString
      let previous ←
        match jLookup fields "previous" with
        | none => Except.ok none
        | some .null => Except.ok none
        | some j => do
            let o ← asOid j
            Except.ok (some o)
      let head ← reqField fields "head" asOid
      let base ← reqField fields "base" asOid
      let base_name ← reqField fields "base_name" asString
      let applied ← reqField fields "applied" asStrList
      let unapplied ← reqField fields "unapplied" asStrList
      let patches ← reqField fields "patches" asOidMap
      Except.ok ⟨message, previous, head, base, base_name, applied, unapplied, patches⟩
    else .error "duplicate field"
  | _ => .error "expected a JSON object"

/-! #### Textual JSON parsing

A recursive-descent parser over the blob's characters, models the parsing
stage of `serde_json::from_slice` (string escapes and float syntax elided —
the tool neither writes nor reads either).  Recursion is on an explicit fuel
bounded by the input length, so the parser is structurally recursive and
evaluates inside the kernel. -/

/-- Skip JSON whitespace. -/
def skipWs : List Char → List Char
  | c :: cs => if c = ' ' ∨ c = '\n' ∨ c = '\t' ∨ c = '\r' then skipWs cs else c :: cs
  | [] => []

/-- Match a literal keyword tail. -/
def parseLit (lit cs : List Char) : Option (List Char) :=
  if lit.isPrefixOf cs then some (cs.drop lit.length) else none

/-- Parse the body of a string literal up to the closing quote. -/
def parseStringBody : List Char → Option (List Char × List Char)
  | [] => none
  | c :: cs =>
    if c = '"' then some ([], cs)
    else (parseStringBody cs).map (fun r => (c :: r.1, r.2))

/-- Split leading decimal digits from the input. -/
def parseDigits : List Char → List Char × List Char
  | [] => ([], [])
  | c :: cs =>
    if c.isDigit then
      let r := parseDigits cs
      (c :: r.1, r.2)
    else ([], c :: cs)

/-- Digits to a natural number. -/
def digitsToNat (ds : List Char) : Nat :=
  ds.foldl (fun acc c => acc * 10 + (c.toNat - '0'.toNat)) 0

mutual

/-- Parse one JSON value; returns the value and the unconsumed input. -/
def parseVal : Nat → List Char → Option (Json × List Char)
  | 0, _ => none
  | fuel + 1, cs =>
    match skipWs cs with
    | [] => none
    | c :: rest =>
      if c = '\x7b' then parseFields fuel rest true
      else if c = '[' then parseElems fuel rest true
      else if c = '"' then (parseStringBody rest).map (fun r => (.str ⟨r.1⟩, r.2))
      else if c = 'n' then (parseLit ['u', 'l', 'l'] rest).map (fun r => (.null, r))
      else if c = 't' then (parseLit ['r', 'u', 'e'] rest).map (fun r => (.bool true, r))
      else if c = 'f' then (parseLit ['a', 'l', 's', 'e'] rest).map (fun r => (.bool false, r))
      else if c = '-' then
        match parseDigits rest with
        | ([], _) => none
        | (ds, r) => some (.num (-(digitsToNat ds : Int)), r)
      else if c.isDigit then
        match parseDigits (c :: rest) with
        | (ds, r) => some (.num (digitsToNat ds), r)
      else none

/-- Parse the elements of an array after its `[`. -/
def parseElems : Nat → List Char → Bool → Option (Json × List Char)
  | 0, _, _ => none
  | fuel + 1, cs, first =>
    match skipWs cs with
    | ']' :: rest => if first then some (.arr [], rest) else none
    | cs' =>
      match parseVal fuel cs' with
      | none => none
      | some (v, r) =>
        match skipWs r with
        | ',' :: r2 =>
          match parseElems fuel r2 false with
          | some (.arr xs, r3) => some (.arr (v :: xs), r3)
          | _ => none
        | ']' :: r2 => some (.arr [v], r2)
        | _ => none

/-- Parse the members of an object after its opening brace. -/
def parseFields : Nat → List Char → Bool → Option (Json × List Char)
  | 0, _, _ => none
  | fuel + 1, cs, first =>
    match skipWs cs with
    | '\x7d' :: rest => if first then some (.obj [], rest) else none
    | '"' :: rest =>
      match parseStringBody rest with
      | none => none
      | some (key, r) =>
        match skipWs r with
        | ':' :: r2 =>
          match parseVal fuel r2 with
          | none => none
          | some (v, r3) =>
            match skipWs r3 with
            | ',' :: r4 =>
              match parseFields fuel r4 false with
              | some (.obj fs, r5) => some (.obj ((⟨key⟩, v) :: fs), r5)
              | _ => none
            | '\x7d' :: r4 => some (.obj [(⟨key⟩, v)], r4)
            | _ => none
        | _ => none
    | _ => none

end

/-- Model of `serde_json::from_slice::<LogEntryV1>`: parse the whole input
(trailing garbage is an error) and run the derived field decoder. -/
def fromSlice (s : String) : Except String LogEntryV1 :=
  match parseVal (s.data.length + 2) s.data with
  | none => .error "invalid JSON"
  | some (j, rest) =>
    if skipWs rest = [] then decodeEntry j else .error "trailing characters"

/-- Equality of metadata records as Rust sees it: `LogEntryV1` fields are
compared with `==`, and the `HashMap` compares as a finite map — two
association lists related by a permutation are the same map. -/
def entryEquiv (e1 e2 : LogEntryV1) : Prop :=
  e1.message = e2.message ∧ e1.previous = e2.previous ∧ e1.head = e2.head
  ∧ e1.base = e2.base ∧ e1.base_name = e2.base_name
  ∧ e1.applied = e2.applied ∧ e1.unapplied = e2.unapplied
  ∧ e1.patches.Perm e2.patches

instance (e1 e2 : LogEntryV1) : Decidable (entryEquiv e1 e2) := by
  unfold entryEquiv; infer_instance

/-- The JSON fields the serializer writes for an entry, with the value of
`head` parameterized (used to probe decoding of ill-formed oids). -/
def entryJsonFieldsWith (e : LogEntryV1) (headJ : Json) : List (String × Json) :=
  [("message", .str e.message),
   ("previous", match e.previous with | none => .null | some o => .str o.hex),
   ("head", headJ),
   ("base", .str e.base.hex),
   ("base_name", .str e.base_name),
   ("applied", .arr (e.applied.map .str)),
   ("unapplied", .arr (e.unapplied.map .str)),
   ("patches", .obj (e.patches.map (fun p => (p.1, .str p.2.hex))))]

/-- The JSON fields the serializer writes for an entry. -/
def entryJsonFields (e : LogEntryV1) : List (String × Json) :=
  entryJsonFieldsWith e (.str e.head.hex)

/-- Canonical-form condition for the optional `previous` oid. -/
def wfPrev : Option Oid → Prop
  | none => True
  | some o => wfOid o

instance wfPrevDec : (o : Option Oid) → Decidable (wfPrev o)
  | none => isTrue trivial
  | some o => inferInstanceAs (Decidable (wfOid o))

/-- Every oid stored in the record is in canonical display form. -/
def wfEntry (e : LogEntryV1) : Prop :=
  wfOid e.head ∧ wfOid e.base ∧ wfPrev e.previous ∧ (∀ p ∈ e.patches, wfOid p.2)

instance (e : LogEntryV1) : Decidable (wfEntry e) := by
  unfold wfEntry; infer_instance

/-! ### The repository service

An explicit model of the slice of libgit2 the queue log uses: a reference
map (full reference name to oid), an object map, the `HEAD` reference, and a
counter for allocating handles of freshly written objects.  Writing objects
extends the object map; updating a reference rewrites the reference map;
nothing else changes. -/

/-- A commit object: tree, ordered parent vector, message. -/
structure CommitObj where
  tree : Oid
  parents : List Oid
  message : String
deriving DecidableEq, Repr

/-- An object in the object database. -/
inductive Obj where
  | commit (c : CommitObj)
  | tree (entries : List (String × Oid))
  | blob (content : String)
deriving DecidableEq, Repr

/-- The repository model. -/
structure GitRepo where
  refs : List (String × Oid)
  objects : List (Oid × Obj)
  headRef : Option String
  fresh : Nat
deriving DecidableEq, Repr

/-- Model of `Repository::find_reference` (`none` is the NotFound error);
the reference store is an association map like the patches map. -/
def refLookup (r : GitRepo) (name : String) : Option Oid :=
  mapLookup r.refs name

/-- Point a reference at an oid (create or overwrite). -/
def refSet (r : GitRepo) (name : String) (o : Oid) : GitRepo :=
  { r with refs := mapInsert r.refs name o }

/-- Look an object up in the object database. -/
def findObj (r : GitRepo) (o : Oid) : Option Obj :=
  ((r.objects.find? (fun p => p.1 == o))).map (·.2)

/-- Write a new object, allocating a fresh handle for it. -/
def addObject (r : GitRepo) (obj : Obj) : GitRepo × Oid :=
  let o : Oid := ⟨"!fresh-" ++ toString r.fresh⟩
  ({ r with objects := r.objects ++ [(o, obj)], fresh := r.fresh + 1 }, o)

/-- Model of `Repository::find_commit` (also of peeling a known-commit oid). -/
def findCommitObj (r : GitRepo) (o : Oid) : Except GitErrorCode CommitObj :=
  match findObj r o with
  | some (.commit c) => .ok c
  | _ => .error .notFound

/-- Model of `Commit::tree`. -/
def findTreeObj (r : GitRepo) (o : Oid) : Except GitErrorCode (List (String × Oid)) :=
  match findObj r o with
  | some (.tree es) => .ok es
  | _ => .error .notFound

/-- Model of `repo.head()?.peel_to_commit()?`: resolve the `HEAD` reference
to a reference, that reference to an oid, and require a commit there. -/
def GitRepo.headCommit (r : GitRepo) : Except GitErrorCode Oid :=
  match r.headRef with
  | none => .error .unbornBranch
  | some ref =>
    match refLookup r ref with
    | none => .error .unbornBranch
    | some o =>
      match findCommitObj r o with
      | .ok _ => .ok o
      | .error e => .error e

/-- Insert a path into a tree builder seeded from a previous tree,
overwriting an existing entry of the same name. -/
def treeInsert (entries : List (String × Oid)) (name : String) (o : Oid) :
    List (String × Oid) :=
  if (entries.find? (fun p => p.1 == name)).isSome then
    entries.map (fun p => if p.1 == name then (name, o) else p)
  else entries ++ [(name, o)]

/-- Write a commit object and point the given reference at it — model of
`Repository::commit` with `update_ref` set. -/
def GitRepo.writeCommit (r : GitRepo) (refName message : String) (tree : Oid)
    (parents : List Oid) : GitRepo × Oid :=
  let next := addObject r (.commit ⟨tree, parents, message⟩)
  (refSet next.1 refName next.2, next.2)

/-- Model of `LogEntryV1::build_tree`: write the serialized metadata as a
blob, derive the tree from the previous entry's tree with `meta` replaced at
mode 0644, and write the tree. -/
def LogEntryV1.build_tree (e : LogEntryV1) (repo : GitRepo)
    (prevTree : List (String × Oid)) : GitRepo × Oid :=
  let blob := addObject repo (.blob (serializeEntry e))
  let entries := treeInsert prevTree "meta" blob.2
  let tree := addObject blob.1 (.tree entries)
  (tree.1, tree.2)

namespace QueueState

/-- Model of the associated function building `refs/queuelogs/<queue>`. -/
def gitrefName (queue : String) : String := "refs/queuelogs/" ++ queue

/-- Model of `QueueState::commit`: find the previous entry commit and its
tree, build the new tree, assemble the parents — previous entry, current
repository `HEAD` commit, then every commit in `patches.values()` — and
write the commit on the queue log reference.  The `expect` panic on a state
with no `previous` is modelled as a generic error (either way nothing is
written). -/
def commit (s : QueueState) (repo : GitRepo) : GitRepo × Except Error QueueState :=
  match s.entry.previous with
  | none => (repo, .error (.Git .generic))
  | some prevOid =>
    match findCommitObj repo prevOid with
    | .error e => (repo, .error (.Git e))
    | .ok prevC =>
      match findTreeObj repo prevC.tree with
      | .error e => (repo, .error (.Git e))
      | .ok prevTree =>
        let built := s.entry.build_tree repo prevTree
        match built.1.headCommit with
        | .error e => (built.1, .error (.Git e))
        | .ok headOid =>
          match (s.entry.patches.map (·.2)).mapM (findCommitObj built.1) with
          | .error e => (built.1, .error (.Git e))
          | .ok _ =>
            let parents := prevOid :: headOid :: s.entry.patches.map (·.2)
            let written := built.1.writeCommit s.gitref_name s.entry.message built.2 parents
            (written.1, .ok { s with oid := some written.2 })

/-- Model of `QueueState::new`: refuse an existing queue log reference, peel
the base branch to a commit, build the initial entry (head = base = the
branch tip, empty stacks) and commit it with the base commit as only
parent.  `base` is passed as the branch's short name, which is what
`git2::Branch::name` returns. -/
def new (repo : GitRepo) (queue base : String) : GitRepo × Except Error QueueState :=
  let gitref_name := gitrefName queue
  if (refLookup repo gitref_name).isSome then
    (repo, .error (.AlreadyExists "queuelog"))
  else
    match refLookup repo ("refs/heads/" ++ base) with
    | none => (repo, .error (.Git .notFound))
    | some baseOid =>
      match findCommitObj repo baseOid with
      | .error e => (repo, .error (.Git e))
      | .ok baseC =>
        match findTreeObj repo baseC.tree with
        | .error e => (repo, .error (.Git e))
        | .ok baseTree =>
          let entry : LogEntryV1 :=
            ⟨"initialise stack log", none, baseOid, baseOid, base, [], [], []⟩
          let built := entry.build_tree repo baseTree
          let written := built.1.writeCommit gitref_name entry.message built.2 [baseOid]
          (written.1, .ok ⟨some written.2, gitref_name, entry⟩)

/-- Model of `QueueState::create_next`: derive the next state, run the
caller's mutator on it, then commit.  A failure of either step leaves the
reference untouched (the mutator's failure even leaves the object database
untouched). -/
def create_next {T : Type} (s : QueueState) (repo : GitRepo) (message : String)
    (f : QueueState → Except Error (QueueState × T)) :
    GitRepo × Except Error (QueueState × T) :=
  match f (s.next message) with
  | .error e => (repo, .error e)
  | .ok (s1, t) =>
    match s1.commit repo with
    | (r1, .error e) => (r1, .error e)
    | (r1, .ok s2) => (r1, .ok (s2, t))

/-- Model of `QueueState::current_for_queue`: find the queue log reference
(propagating NotFound as a plain Git error), then run the
`maybe_inconsistent` closure; every failure inside the closure — tip not a
commit, tree without `meta`, `meta` not a blob, undecodable blob — collapses
to `Inconsistency("queuelog reference")`. -/
def current_for_queue (repo : GitRepo) (queue : String) : Except Error QueueState :=
  let gitref_name := gitrefName queue
  match refLookup repo gitref_name with
  | none => .error (.Git .notFound)
  | some tip =>
    let inner : Except String LogEntryV1 := do
      let c ← (findCommitObj repo tip).mapError (fun _ => "peel failed")
      let tree ← (findTreeObj repo c.tree).mapError (fun _ => "tree failed")
      let metaOid ←
        match mapLookup tree "meta" with
        | none => .error "no meta path"
        | some o => Except.ok o
      let content ←
        match findObj repo metaOid with
        | some (.blob b) => Except.ok b
        | _ => .error "expected meta object was a blob, but it wasn't"
      fromSlice content
    match inner with
    | .ok entry => .ok ⟨some tip, gitref_name, entry⟩
    | .error _ => .error (.Inconsistency "queuelog reference")

end QueueState

/-! ### The queue façade (src/git-queue/src/queue.rs) -/

/-- Drop the first `n` characters of a string. -/
def strDrop (s : String) (n : Nat) : String := ⟨s.data.drop n⟩

/-- Does `p` occur at the start of `s`?  (`str::starts_with`.) -/
def strStarts (s p : String) : Bool := p.data.isPrefixOf s.data

/-- Model of `str::split_once` at the character-list level: split around the
first occurrence of the pattern, `none` when it does not occur. -/
def splitOnceList (pat : List Char) : List Char → Option (List Char × List Char)
  | [] => if pat = [] then some ([], []) else none
  | c :: cs =>
    if pat.isPrefixOf (c :: cs) then some ([], (c :: cs).drop pat.length)
    else (splitOnceList pat cs).map (fun r => (c :: r.1, r.2))

/-- Model of `str::split_once`. -/
def splitOnce (s pat : String) : Option (String × String) :=
  (splitOnceList pat.data s.data).map (fun r => (⟨r.1⟩, ⟨r.2⟩))

/-- Model of `str::split('/')` as a list of chunks. -/
def splitChar (c : Char) : List Char → List (List Char)
  | [] => [[]]
  | x :: xs =>
    let r := splitChar c xs
    if x = c then [] :: r
    else
      match r with
      | h :: t => (x :: h) :: t
      | [] => [[x]]

/-- Model of `name.split('/').nth(1).unwrap()` in `Queue::list`. -/
def splitSlashSecond (s : String) : String :=
  ⟨(splitChar '/' s.data).getD 1 []⟩

/-- Model of the `Queue` façade value: its branch reference and its state. -/
structure Queue where
  branchRef : String
  state : QueueState
deriving DecidableEq, Repr

namespace Queue

/-- Model of `Queue::for_queue`: look the branch `queues/<queue>` up
(`None` for NotFound); when present, load the state from the queue log,
propagating its errors unchanged.  (The InvalidSpec-to-InvalidName mapping
for syntactically invalid branch names is outside the ref-map model, which
treats names as opaque keys.) -/
def for_queue (repo : GitRepo) (queue : String) : Except Error (Option Queue) :=
  match refLookup repo ("refs/heads/queues/" ++ queue) with
  | none => .ok none
  | some _ =>
    match QueueState.current_for_queue repo queue with
    | .error e => .error e
    | .ok st => .ok (some ⟨"refs/heads/queues/" ++ queue, st⟩)

/-- Model of `Ctx::current_branch`: `None` when `HEAD` is absent or unborn;
an error when `HEAD` is not a branch; otherwise the branch's full reference
name. -/
def current_branch (repo : GitRepo) : Except Error (Option String) :=
  match repo.headRef with
  | none => .ok none
  | some r =>
    if strStarts r "refs/heads/" then .ok (some r) else .error (.Git .invalid)

/-- Model of `Queue::current`: no current branch means no current queue;
otherwise take the branch's short name and `split_once` it on the pattern
`queues/`, delegating the suffix to `for_queue` on a match and returning
`None` otherwise. -/
def current (repo : GitRepo) : Except Error (Option Queue) :=
  match current_branch repo with
  | .error e => .error e
  | .ok none => .ok none
  | .ok (some fullref) =>
    let name := strDrop fullref 11
    match splitOnce name "queues/" with
    | some pq => for_queue repo pq.2
    | none => .ok none

/-- The full reference names of the local branches, in reference-map order —
model of `Repository::branches(Some(BranchType::Local))`. -/
def localBranches (repo : GitRepo) : List String :=
  (repo.refs.map (·.1)).filter (fun n => strStarts n "refs/heads/")

/-- One step of the `filter_map` in `Queue::list`, applied to a local
branch's full reference name: branches outside the `queues/` namespace are
skipped; for the rest the queue name is the second `/`-separated chunk of
the short name, `for_queue` errors pass through, and a `for_queue` that
finds no branch yields `Inconsistency("queuelog")`. -/
def listItem (repo : GitRepo) (refName : String) : Option (Except Error Queue) :=
  let name := strDrop refName 11
  if strStarts name "queues/" then
    some
      (match for_queue repo (splitSlashSecond name) with
       | .error e => .error e
       | .ok (some q) => .ok q
       | .ok none => .error (.Inconsistency "queuelog"))
  else none

/-- Model of `Queue::list`: the items produced over all local branches. -/
def list (repo : GitRepo) : List (Except Error Queue) :=
  (localBranches repo).filterMap (listItem repo)

end Queue

/-! ### Concrete repositories and states used by witnesses and
counterexamples -/

/-- A queue-log tip commit's tree. -/
def exTree : List (String × Oid) := [("meta", ⟨"33"⟩)]

/-- A repository with an unborn `HEAD`: commit creation fails after the tree
is built, exercising the failure atomicity of `create_next`. -/
def exRepoC8 : GitRepo :=
  { refs := [("refs/heads/main", ⟨"44"⟩), ("refs/queuelogs/q", ⟨"22"⟩)]
    objects := [(⟨"11"⟩, .tree exTree), (⟨"22"⟩, .commit ⟨⟨"11"⟩, [], "init"⟩),
      (⟨"44"⟩, .commit ⟨⟨"11"⟩, [], "main"⟩), (⟨"33"⟩, .blob "")]
    headRef := none
    fresh := 0 }

/-- A committed state whose previous entry is the log tip of `exRepoC8`. -/
def exStateC8 : QueueState :=
  ⟨some ⟨"22"⟩, "refs/queuelogs/q",
    ⟨"m", some ⟨"22"⟩, ⟨"44"⟩, ⟨"00"⟩, "main", [], [], []⟩⟩

/-- A repository whose `HEAD` branch commit (`44`) differs from the queue
head commit (`66`, the applied patch's commit). -/
def exRepoC1 : GitRepo :=
  { refs := [("refs/heads/main", ⟨"44"⟩), ("refs/queuelogs/q", ⟨"22"⟩)]
    objects := [(⟨"11"⟩, .tree exTree), (⟨"22"⟩, .commit ⟨⟨"11"⟩, [], "init"⟩),
      (⟨"44"⟩, .commit ⟨⟨"11"⟩, [], "main"⟩), (⟨"66"⟩, .commit ⟨⟨"11"⟩, [], "patch"⟩)]
    headRef := some "refs/heads/main"
    fresh := 0 }

/-- A state with one applied patch whose commit is the queue head. -/
def exStateC1 : QueueState :=
  ⟨some ⟨"22"⟩, "refs/queuelogs/q",
    ⟨"m", some ⟨"22"⟩, ⟨"66"⟩, ⟨"00"⟩, "main", ["p"], [], [("p", ⟨"66"⟩)]⟩⟩

/-- A repository with a queue branch whose queue log reference is missing. -/
def exRepoC4 : GitRepo :=
  { refs := [("refs/heads/queues/w", ⟨"44"⟩)]
    objects := []
    headRef := none
    fresh := 0 }

/-- A repository checked out on the branch `my-queues/x` — a short name that
does not begin with `queues/` but contains it — beside an inconsistent queue
`x`. -/
def exRepoC9 : GitRepo :=
  { refs := [("refs/heads/my-queues/x", ⟨"44"⟩), ("refs/heads/queues/x", ⟨"55"⟩)]
    objects := []
    headRef := some "refs/heads/my-queues/x"
    fresh := 0 }

/-! ### Helper lemmas -/

theorem mapIndex_eq {m : List (String × Oid)} {k : String} {v : Oid}
    (h : mapLookup m k = some v) : mapIndex m k = v := by
  simp [mapIndex, h]

theorem mapLookup_cons {p : String × Oid} {m : List (String × Oid)} {k : String} :
    mapLookup (p :: m) k = if p.1 = k then some p.2 else mapLookup m k := by
  by_cases h : p.1 = k
  · simp [mapLookup, List.find?_cons_of_pos, h]
  · simp [mapLookup, List.find?_cons_of_neg, h]

theorem mapLookup_isSome_iff {m : List (String × Oid)} {k : String} :
    (mapLookup m k).isSome = true ↔ k ∈ m.map Prod.fst := by
  induction m with
  | nil => simp [mapLookup]
  | cons p m ih =>
    rw [mapLookup_cons, List.map_cons]
    by_cases h : p.1 = k
    · simp [h]
    · rw [if_neg h, ih]
      constructor
      · intro hm; exact List.mem_cons_of_mem _ hm
      · intro hm
        rcases List.mem_cons.mp hm with heq | hm'
        · exact absurd heq.symm h
        · exact hm'

theorem mapLookup_eq_none_of_not_mem {m : List (String × Oid)} {k : String}
    (h : k ∉ m.map Prod.fst) : mapLookup m k = none := by
  rcases hm : mapLookup m k with _ | v
  · rfl
  · exact absurd (mapLookup_isSome_iff.mp (by simp [hm])) h

theorem mapHas_iff {m : List (String × Oid)} {k : String} :
    mapHas m k = true ↔ k ∈ m.map Prod.fst := by
  rw [mapHas, mapLookup_isSome_iff]

theorem keys_replace (m : List (String × Oid)) (k : String) (v : Oid) :
    (m.map (fun p => if p.1 == k then (k, v) else p)).map Prod.fst = m.map Prod.fst := by
  induction m with
  | nil => rfl
  | cons p m ih =>
    by_cases h : p.1 = k
    · have hb : (p.1 == k) = true := by simpa using h
      rw [List.map_cons, if_pos hb, List.map_cons, List.map_cons, ih, h]
    · have hb : ¬ ((p.1 == k) = true) := by simpa using h
      rw [List.map_cons, if_neg hb, List.map_cons, List.map_cons, ih]

theorem keys_mapInsert (m : List (String × Oid)) (k : String) (v : Oid) :
    (mapInsert m k v).map Prod.fst =
      if mapHas m k then m.map Prod.fst else m.map Prod.fst ++ [k] := by
  unfold mapInsert
  by_cases h : mapHas m k
  · rw [if_pos h, if_pos h, keys_replace]
  · rw [if_neg h, if_neg h, List.map_append]
    rfl

theorem keys_mapRemove (m : List (String × Oid)) (k : String) :
    (mapRemove m k).map Prod.fst = (m.map Prod.fst).erase k := by
  induction m with
  | nil => rfl
  | cons p m ih =>
    unfold mapRemove at ih ⊢
    by_cases h : p.1 = k
    · have hb : (p.1 == k) = true := by simpa using h
      rw [List.eraseP_cons, hb, cond_true, List.map_cons, List.erase_cons, if_pos hb]
    · have hb : (p.1 == k) = false := by simpa using h
      rw [List.eraseP_cons, hb, cond_false, List.map_cons, List.map_cons,
        List.erase_cons, if_neg (by simpa using h), ih]

theorem mapLookup_replace_ne {m : List (String × Oid)} {k k' : String} {v : Oid}
    (h : k' ≠ k) :
    mapLookup (m.map (fun p => if p.1 == k then (k, v) else p)) k' = mapLookup m k' := by
  induction m with
  | nil => rfl
  | cons p m ih =>
    by_cases hp : p.1 = k
    · have hb : (p.1 == k) = true := by simpa using hp
      rw [List.map_cons, if_pos hb, mapLookup_cons, mapLookup_cons,
        if_neg (show ¬ (k, v).1 = k' from fun e => h e.symm),
        if_neg (show ¬ p.1 = k' from by rw [hp]; exact fun e => h e.symm)]
      exact ih
    · have hb : ¬ ((p.1 == k) = true) := by simpa using hp
      rw [List.map_cons, if_neg hb, mapLookup_cons, mapLookup_cons]
      by_cases hp' : p.1 = k'
      · rw [if_pos hp', if_pos hp']
      · rw [if_neg hp', if_neg hp']
        exact ih

theorem mapLookup_replace_self {m : List (String × Oid)} {k : String} {v : Oid}
    (h : mapHas m k = true) :
    mapLookup (m.map (fun p => if p.1 == k then (k, v) else p)) k = some v := by
  induction m with
  | nil => simp [mapHas, mapLookup] at h
  | cons p m ih =>
    by_cases hp : p.1 = k
    · have hb : (p.1 == k) = true := by simpa using hp
      rw [List.map_cons, if_pos hb, mapLookup_cons, if_pos rfl]
    · have hb : ¬ ((p.1 == k) = true) := by simpa using hp
      rw [List.map_cons, if_neg hb, mapLookup_cons, if_neg hp]
      apply ih
      rw [mapHas, mapLookup_cons, if_neg hp] at h
      exact h

theorem mapLookup_append (m1 m2 : List (String × Oid)) (k : String) :
    mapLookup (m1 ++ m2) k =
      match mapLookup m1 k with
      | some v => some v
      | none => mapLookup m2 k := by
  induction m1 with
  | nil => simp [mapLookup]
  | cons p m1 ih =>
    rw [List.cons_append, mapLookup_cons, mapLookup_cons]
    by_cases h : p.1 = k
    · rw [if_pos h, if_pos h]
    · rw [if_neg h, if_neg h, ih]

theorem mapLookup_mapInsert (m : List (String × Oid)) (k k' : String) (v : Oid) :
    mapLookup (mapInsert m k v) k' = if k' = k then some v else mapLookup m k' := by
  unfold mapInsert
  by_cases h : mapHas m k
  · rw [if_pos h]
    by_cases hk : k' = k
    · subst hk
      rw [if_pos rfl]
      exact mapLookup_replace_self h
    · rw [if_neg hk]
      exact mapLookup_replace_ne hk
  · rw [if_neg h]
    rw [mapLookup_append]
    by_cases hk : k' = k
    · subst hk
      have hnone : mapLookup m k' = none := by
        rcases hm : mapLookup m k' with _ | v'
        · rfl
        · exact absurd (by simp [mapHas, hm]) h
      rw [hnone, if_pos rfl, mapLookup_cons, if_pos rfl]
    · rcases hm : mapLookup m k' with _ | v'
      · rw [if_neg hk, mapLookup_cons, if_neg (fun e : k = k' => hk e.symm)]
        rfl
      · rw [if_neg hk]

theorem mapLookup_mapRemove {m : List (String × Oid)} (hnd : (m.map Prod.fst).Nodup)
    (k k' : String) :
    mapLookup (mapRemove m k) k' = if k' = k then none else mapLookup m k' := by
  induction m with
  | nil => simp [mapRemove, mapLookup]
  | cons p m ih =>
    rw [List.map_cons, List.nodup_cons] at hnd
    unfold mapRemove at ih ⊢
    by_cases h : p.1 = k
    · have hb : (p.1 == k) = true := by simpa using h
      rw [List.eraseP_cons, hb, cond_true]
      by_cases hk : k' = k
      · subst hk
        rw [if_pos rfl]
        exact mapLookup_eq_none_of_not_mem (h ▸ hnd.1)
      · rw [if_neg hk, mapLookup_cons, if_neg (fun e : p.1 = k' => hk (e.symm.trans h))]
    · have hb : (p.1 == k) = false := by simpa using h
      rw [List.eraseP_cons, hb, cond_false, mapLookup_cons, mapLookup_cons]
      by_cases hp' : p.1 = k'
      · have hk : ¬ k' = k := fun e => h (hp'.trans e)
        rw [if_pos hp', if_neg hk, if_pos hp']
      · rw [if_neg hp', if_neg hp', ih hnd.2]

theorem length_replaceFirst (l : List String) (o n : String) :
    (QueueState.replaceFirst l o n).length = l.length := by
  induction l with
  | nil => rfl
  | cons x xs ih =>
    unfold QueueState.replaceFirst
    by_cases h : x = o <;> simp [h, ih]

theorem replaceFirst_self (l : List String) (o : String) :
    QueueState.replaceFirst l o o = l := by
  induction l with
  | nil => rfl
  | cons x xs ih =>
    unfold QueueState.replaceFirst
    by_cases h : x = o <;> simp [h, ih]

theorem replaceFirst_not_mem {l : List String} {o : String} (n : String) (h : o ∉ l) :
    QueueState.replaceFirst l o n = l := by
  induction l with
  | nil => rfl
  | cons x xs ih =>
    unfold QueueState.replaceFirst
    have hx : x ≠ o := by rintro rfl; exact h (by simp)
    have ho : o ∉ xs := fun hm => h (by simp [hm])
    simp [hx, ih ho]

theorem mem_of_getLast?_eq {α : Type} {l : List α} {x : α}
    (h : l.getLast? = some x) : x ∈ l := by
  rcases List.mem_getLast?_eq_getLast (show x ∈ l.getLast? by simp [h]) with ⟨hne, hx⟩
  rw [hx]
  exact List.getLast_mem hne

theorem mem_replaceFirst {l : List String} {o n x : String} (hnd : l.Nodup) (ho : o ∈ l) :
    x ∈ QueueState.replaceFirst l o n ↔ (x ∈ l ∧ x ≠ o) ∨ x = n := by
  induction l with
  | nil => simp at ho
  | cons a l ih =>
    rw [List.nodup_cons] at hnd
    unfold QueueState.replaceFirst
    by_cases h : a = o
    · rw [if_pos h]
      subst h
      constructor
      · intro hx
        rcases List.mem_cons.mp hx with rfl | hx'
        · exact Or.inr rfl
        · exact Or.inl ⟨List.mem_cons_of_mem _ hx', fun e => hnd.1 (e ▸ hx')⟩
      · rintro (⟨hx, hne⟩ | rfl)
        · rcases List.mem_cons.mp hx with rfl | hx'
          · exact absurd rfl hne
          · exact List.mem_cons_of_mem _ hx'
        · exact List.mem_cons_self _ _
    · rw [if_neg h]
      have hol : o ∈ l := by
        rcases List.mem_cons.mp ho with rfl | hh
        · exact absurd rfl h
        · exact hh
      constructor
      · intro hx
        rcases List.mem_cons.mp hx with rfl | hx'
        · exact Or.inl ⟨List.mem_cons_self _ _, h⟩
        · rcases (ih hnd.2 hol).mp hx' with ⟨hm, hne⟩ | rfl
          · exact Or.inl ⟨List.mem_cons_of_mem _ hm, hne⟩
          · exact Or.inr rfl
      · rintro (⟨hx, hne⟩ | rfl)
        · rcases List.mem_cons.mp hx with rfl | hx'
          · exact List.mem_cons_self _ _
          · exact List.mem_cons_of_mem _ ((ih hnd.2 hol).mpr (Or.inl ⟨hx', hne⟩))
        · exact List.mem_cons_of_mem _ ((ih hnd.2 hol).mpr (Or.inr rfl))

theorem nodup_replaceFirst {l : List String} {o n : String} (hnd : l.Nodup)
    (hn : n ∉ l) : (QueueState.replaceFirst l o n).Nodup := by
  induction l with
  | nil => exact List.nodup_nil
  | cons a l ih =>
    rw [List.nodup_cons] at hnd
    have hnl : n ∉ l := fun hm => hn (List.mem_cons_of_mem _ hm)
    unfold QueueState.replaceFirst
    by_cases h : a = o
    · rw [if_pos h]
      exact List.nodup_cons.mpr ⟨hnl, hnd.2⟩
    · rw [if_neg h]
      refine List.nodup_cons.mpr ⟨?_, ih hnd.2 hnl⟩
      by_cases hol : o ∈ l
      · rw [mem_replaceFirst hnd.2 hol]
        rintro (⟨hx, _⟩ | rfl)
        · exact hnd.1 hx
        · exact hn (List.mem_cons_self _ _)
      · rw [replaceFirst_not_mem n hol]
        exact hnd.1

theorem getLast?_replaceFirst {l : List String} {o n : String} (hnd : l.Nodup)
    (ho : o ∈ l) :
    (QueueState.replaceFirst l o n).getLast? =
      if l.getLast? = some o then some n else l.getLast? := by
  induction l with
  | nil => simp at ho
  | cons a l ih =>
    rw [List.nodup_cons] at hnd
    unfold QueueState.replaceFirst
    by_cases h : a = o
    · rw [if_pos h]
      subst h
      cases l with
      | nil => simp
      | cons b l' =>
        have hne : ¬ ((b :: l').getLast? = some a) := by
          intro hx
          exact hnd.1 (mem_of_getLast?_eq hx)
        rw [List.getLast?_cons_cons, List.getLast?_cons_cons, if_neg hne]
    · rw [if_neg h]
      have hol : o ∈ l := by
        rcases List.mem_cons.mp ho with rfl | hh
        · exact absurd rfl h
        · exact hh
      have hlne : l ≠ [] := by rintro rfl; simp at hol
      have hrne : QueueState.replaceFirst l o n ≠ [] := by
        intro he
        have hlen := length_replaceFirst l o n
        rw [he] at hlen
        exact hlne (List.eq_nil_of_length_eq_zero hlen.symm)
      rcases List.exists_cons_of_ne_nil hlne with ⟨b, l', hl⟩
      rcases List.exists_cons_of_ne_nil hrne with ⟨c, r', hr⟩
      rw [hr, List.getLast?_cons_cons, ← hr, ih hnd.2 hol, hl,
        List.getLast?_cons_cons, ← hl]

theorem except_bind_ok {ε α β : Type} (x : Except ε α) (f : α → β) :
    (x >>= fun a => Except.ok (f a)) = Except.map f x := by
  cases x <;> rfl

theorem headInv_concat {e : LogEntryV1} {l : List String} {p : String}
    (hinv : headInv e) (happ : e.applied = l ++ [p]) :
    mapLookup e.patches p = some e.head := by
  unfold headInv at hinv
  rw [happ, List.getLast?_concat] at hinv
  exact hinv

theorem exists_concat_of_getLast? {α : Type} {l : List α} {a : α}
    (h : l.getLast? = some a) : ∃ l', l = l' ++ [a] := by
  rcases List.eq_nil_or_concat l with rfl | ⟨l', b, hc⟩
  · simp at h
  · have hl : l = l' ++ [b] := by simpa using hc
    subst hl
    rw [List.getLast?_concat] at h
    obtain rfl : b = a := by injection h
    exact ⟨l', rfl⟩

/-- Moving the last element of one list to the end of the other preserves
the partition invariant of an entry. -/
theorem entryInv_transfer {e e' : LogEntryV1} (hinv : entryInv e)
    {l : List String} {p : String}
    (hsplit : e.unapplied = l ++ [p] ∧ e'.unapplied = l ∧ e'.applied = e.applied ++ [p]
      ∨ e.applied = l ++ [p] ∧ e'.applied = l ∧ e'.unapplied = e.unapplied ++ [p])
    (hpatch : e'.patches = e.patches) : entryInv e' := by
  obtain ⟨⟨hdisj, hk1, hk2, hk3⟩, hndA, hndU, hndK⟩ := hinv
  rcases hsplit with ⟨hu, hu', ha'⟩ | ⟨ha, ha', hu'⟩
  · rw [hu] at hdisj hk1 hk3 hndU
    rw [List.nodup_append] at hndU
    obtain ⟨hndl, -, hdlp⟩ := hndU
    have hpl : p ∉ l := fun hx => hdlp hx (by simp)
    have hpA : p ∉ e.applied := fun hx => hdisj p hx (by simp)
    refine ⟨⟨?_, ?_, ?_, ?_⟩, ?_, ?_, ?_⟩
    · intro n hn
      rw [ha', List.mem_append] at hn
      rw [hu']
      rcases hn with hn | hn
      · intro hl
        exact hdisj n hn (by simp [hl])
      · simp only [List.mem_singleton] at hn
        subst hn
        exact hpl
    · intro n hn
      rw [hpatch] at hn
      rcases hk1 n hn with hn' | hn'
      · exact Or.inl (by rw [ha']; exact List.mem_append_left _ hn')
      · rw [List.mem_append] at hn'
        rcases hn' with hn' | hn'
        · exact Or.inr (by rw [hu']; exact hn')
        · exact Or.inl (by rw [ha']; exact List.mem_append_right _ hn')
    · intro n hn
      rw [ha', List.mem_append] at hn
      rw [hpatch]
      rcases hn with hn | hn
      · exact hk2 n hn
      · exact hk3 n (List.mem_append_right _ hn)
    · intro n hn
      rw [hu'] at hn
      rw [hpatch]
      exact hk3 n (List.mem_append_left _ hn)
    · rw [ha', List.nodup_append]
      exact ⟨hndA, List.nodup_singleton _, fun x hx hxb => by
        simp only [List.mem_singleton] at hxb
        subst hxb
        exact hpA hx⟩
    · rw [hu']
      exact hndl
    · rw [hpatch]
      exact hndK
  · rw [ha] at hdisj hk1 hk2 hndA
    rw [List.nodup_append] at hndA
    obtain ⟨hndl, -, hdlp⟩ := hndA
    have hpl : p ∉ l := fun hx => hdlp hx (by simp)
    have hpU : p ∉ e.unapplied := hdisj p (by simp)
    refine ⟨⟨?_, ?_, ?_, ?_⟩, ?_, ?_, ?_⟩
    · intro n hn
      rw [ha'] at hn
      rw [hu', List.mem_append]
      rintro (hn' | hn')
      · exact hdisj n (List.mem_append_left _ hn) hn'
      · simp only [List.mem_singleton] at hn'
        subst hn'
        exact hpl hn
    · intro n hn
      rw [hpatch] at hn
      rcases hk1 n hn with hn' | hn'
      · rw [List.mem_append] at hn'
        rcases hn' with hn' | hn'
        · exact Or.inl (by rw [ha']; exact hn')
        · exact Or.inr (by rw [hu']; exact List.mem_append_right _ hn')
      · exact Or.inr (by rw [hu']; exact List.mem_append_left _ hn')
    · intro n hn
      rw [ha'] at hn
      rw [hpatch]
      exact hk2 n (List.mem_append_left _ hn)
    · intro n hn
      rw [hu', List.mem_append] at hn
      rw [hpatch]
      rcases hn with hn | hn
      · exact hk3 n hn
      · exact hk2 n (List.mem_append_right _ hn)
    · rw [ha']
      exact hndl
    · rw [hu', List.nodup_append]
      exact ⟨hndU, List.nodup_singleton _, fun x hx hxb => by
        simp only [List.mem_singleton] at hxb
        subst hxb
        exact hpU hx⟩
    · rw [hpatch]
      exact hndK

/-- `push` preserves the partition invariant. -/
theorem entryInv_push {s : QueueState} (hinv : entryInv s.entry) :
    entryInv s.push.entry := by
  unfold QueueState.push
  cases hu : s.entry.unapplied.getLast? with
  | none => exact hinv
  | some patch =>
    obtain ⟨l, hl⟩ := exists_concat_of_getLast? hu
    refine entryInv_transfer hinv (Or.inl ⟨hl, ?_, ?_⟩) rfl
    · simp [hl]
    · rfl

/-- `pop` preserves the partition invariant. -/
theorem entryInv_pop {s : QueueState} {gp : Oid → Except Error Oid} {s' : QueueState}
    (hinv : entryInv s.entry) (hpop : s.pop gp = Except.ok s') :
    entryInv s'.entry := by
  rcases List.eq_nil_or_concat s.entry.applied with hnil | ⟨l, p, hc⟩
  · unfold QueueState.pop at hpop
    rw [hnil] at hpop
    simp only [List.getLast?_nil] at hpop
    injection hpop with h
    exact h ▸ hinv
  · have hl : s.entry.applied = l ++ [p] := by simpa using hc
    unfold QueueState.pop at hpop
    rw [hl, List.getLast?_concat] at hpop
    simp only [List.dropLast_concat] at hpop
    cases hd : l.getLast? with
    | some q =>
      rw [hd] at hpop
      injection hpop with h
      refine entryInv_transfer hinv (Or.inr ⟨hl, ?_, ?_⟩) ?_ <;> rw [← h]
    | none =>
      rw [hd] at hpop
      cases hg : gp (mapIndex s.entry.patches p) with
      | error e =>
        rw [hg] at hpop
        exact absurd hpop (by simp [Bind.bind, Except.bind])
      | ok hOid =>
        rw [hg] at hpop
        simp only [Bind.bind, Except.bind, Except.ok.injEq] at hpop
        refine entryInv_transfer hinv (Or.inr ⟨hl, ?_, ?_⟩) ?_ <;> rw [← hpop]

/-- `upsert_patch` preserves the partition invariant. -/
theorem entryInv_upsert {s : QueueState} (hinv : entryInv s.entry) (n : String) (c : Oid) :
    entryInv (s.upsert_patch n c).entry := by
  obtain ⟨⟨hdisj, hk1, hk2, hk3⟩, hndA, hndU, hndK⟩ := hinv
  unfold QueueState.upsert_patch
  by_cases h : s.has_patch n
  · rw [if_pos h]
    have hm : mapHas s.entry.patches n = true := h
    have hkeys : (mapInsert s.entry.patches n c).map Prod.fst =
        s.entry.patches.map Prod.fst := by
      rw [keys_mapInsert, if_pos hm]
    exact ⟨⟨hdisj, fun x hx => hk1 x (hkeys ▸ hx), fun x hx => hkeys ▸ hk2 x hx,
      fun x hx => hkeys ▸ hk3 x hx⟩, hndA, hndU, hkeys ▸ hndK⟩
  · rw [if_neg h]
    have hm : ¬ mapHas s.entry.patches n = true := h
    have hnK : n ∉ s.entry.patches.map Prod.fst := fun hx =>
      hm (mapHas_iff.mpr hx)
    have hnA : n ∉ s.entry.applied := fun hx => hnK (hk2 n hx)
    have hnU : n ∉ s.entry.unapplied := fun hx => hnK (hk3 n hx)
    have hkeys : (mapInsert s.entry.patches n c).map Prod.fst =
        s.entry.patches.map Prod.fst ++ [n] := by
      rw [keys_mapInsert, if_neg hm]
    refine ⟨⟨?_, ?_, ?_, ?_⟩, ?_, hndU, ?_⟩
    · intro x hx
      rw [List.mem_append] at hx
      rcases hx with hx | hx
      · exact hdisj x hx
      · simp only [List.mem_singleton] at hx
        subst hx
        exact hnU
    · intro x hx
      rw [hkeys, List.mem_append] at hx
      rcases hx with hx | hx
      · rcases hk1 x hx with hx' | hx'
        · exact Or.inl (List.mem_append_left _ hx')
        · exact Or.inr hx'
      · simp only [List.mem_singleton] at hx
        subst hx
        exact Or.inl (List.mem_append_right _ (by simp))
    · intro x hx
      rw [List.mem_append] at hx
      rw [hkeys, List.mem_append]
      rcases hx with hx | hx
      · exact Or.inl (hk2 x hx)
      · exact Or.inr hx
    · intro x hx
      rw [hkeys, List.mem_append]
      exact Or.inl (hk3 x hx)
    · rw [List.nodup_append]
      exact ⟨hndA, List.nodup_singleton _, fun x hx hxb => by
        simp only [List.mem_singleton] at hxb
        subst hxb
        exact hnA hx⟩
    · rw [hkeys, List.nodup_append]
      exact ⟨hndK, List.nodup_singleton _, fun x hx hxb => by
        simp only [List.mem_singleton] at hxb
        subst hxb
        exact hnK hx⟩

/-- `rename_patch` preserves the partition invariant provided the new name is
not an existing patch (or the rename is trivial). -/
theorem entryInv_rename {s : QueueState} (hinv : entryInv s.entry)
    {oldN newN : String} (hold : s.has_patch oldN = true)
    (hfresh : s.has_patch newN = false ∨ newN = oldN) :
    entryInv (s.rename_patch oldN newN).entry := by
  obtain ⟨⟨hdisj, hk1, hk2, hk3⟩, hndA, hndU, hndK⟩ := hinv
  have hold2 : mapHas s.entry.patches oldN = true := hold
  have hfr : mapHas s.entry.patches newN = false ∨ newN = oldN := hfresh
  have holdK : oldN ∈ s.entry.patches.map Prod.fst := mapHas_iff.mp hold2
  unfold QueueState.rename_patch
  have hKeyRem : (mapRemove s.entry.patches oldN).map Prod.fst =
      (s.entry.patches.map Prod.fst).erase oldN := keys_mapRemove _ _
  have hndRem : ((mapRemove s.entry.patches oldN).map Prod.fst).Nodup := by
    rw [hKeyRem]
    exact hndK.erase _
  have hnewRem : mapHas (mapRemove s.entry.patches oldN) newN = false := by
    rcases hfr with hf | rfl
    · by_contra hcon
      have hm : mapHas (mapRemove s.entry.patches oldN) newN = true := by
        revert hcon
        cases mapHas (mapRemove s.entry.patches oldN) newN <;> simp
      have h1 : newN ∈ (s.entry.patches.map Prod.fst).erase oldN := by
        rw [← hKeyRem]
        exact mapHas_iff.mp hm
      have h2 : newN ∈ s.entry.patches.map Prod.fst := List.mem_of_mem_erase h1
      exact absurd (mapHas_iff.mpr h2) (by simp [hf])
    · by_contra hcon
      have hm : mapHas (mapRemove s.entry.patches newN) newN = true := by
        revert hcon
        cases mapHas (mapRemove s.entry.patches newN) newN <;> simp
      have h1 : newN ∈ (s.entry.patches.map Prod.fst).erase newN := by
        rw [← hKeyRem]
        exact mapHas_iff.mp hm
      rw [hndK.mem_erase_iff] at h1
      exact h1.1 rfl
  have hkeys : (mapInsert (mapRemove s.entry.patches oldN) newN
      (mapIndex s.entry.patches oldN)).map Prod.fst =
      (s.entry.patches.map Prod.fst).erase oldN ++ [newN] := by
    rw [keys_mapInsert, if_neg (by simp [hnewRem]), hKeyRem]
  have hmemKeys : ∀ x, x ∈ (s.entry.patches.map Prod.fst).erase oldN ++ [newN] ↔
      (x ∈ s.entry.patches.map Prod.fst ∧ x ≠ oldN) ∨ x = newN := by
    intro x
    rw [List.mem_append, hndK.mem_erase_iff, List.mem_singleton]
    tauto
  have hndKeys' : ((s.entry.patches.map Prod.fst).erase oldN ++ [newN]).Nodup := by
    rw [List.nodup_append]
    refine ⟨hndK.erase _, List.nodup_singleton _, fun x hx hxb => ?_⟩
    simp only [List.mem_singleton] at hxb
    subst hxb
    rw [hndK.mem_erase_iff] at hx
    rcases hfr with hf | rfl
    · exact absurd (mapHas_iff.mpr hx.2) (by simp [hf])
    · exact hx.1 rfl
  by_cases hA : oldN ∈ s.entry.applied
  · rw [if_pos hA]
    have hnewU : newN ∉ s.entry.unapplied := by
      rcases hfr with hf | rfl
      · exact fun hx => absurd (mapHas_iff.mpr (hk3 _ hx)) (by simp [hf])
      · exact hdisj _ hA
    have hmemA : ∀ x, x ∈ QueueState.replaceFirst s.entry.applied oldN newN ↔
        (x ∈ s.entry.applied ∧ x ≠ oldN) ∨ x = newN := fun x =>
      mem_replaceFirst hndA hA
    have hndA' : (QueueState.replaceFirst s.entry.applied oldN newN).Nodup := by
      rcases hfr with hf | rfl
      · exact nodup_replaceFirst hndA
          (fun hx => absurd (mapHas_iff.mpr (hk2 _ hx)) (by simp [hf]))
      · rw [replaceFirst_self]
        exact hndA
    refine ⟨⟨?_, ?_, ?_, ?_⟩, hndA', hndU, hkeys ▸ hndKeys'⟩
    · intro x hx
      rcases (hmemA x).mp hx with ⟨hx', hne⟩ | rfl
      · exact hdisj x hx'
      · exact hnewU
    · intro x hx
      rw [hkeys] at hx
      rcases (hmemKeys x).mp hx with ⟨hxk, hne⟩ | rfl
      · rcases hk1 x hxk with hx' | hx'
        · exact Or.inl ((hmemA x).mpr (Or.inl ⟨hx', hne⟩))
        · exact Or.inr hx'
      · exact Or.inl ((hmemA x).mpr (Or.inr rfl))
    · intro x hx
      rw [hkeys]
      rcases (hmemA x).mp hx with ⟨hx', hne⟩ | rfl
      · exact (hmemKeys x).mpr (Or.inl ⟨hk2 x hx', hne⟩)
      · exact (hmemKeys x).mpr (Or.inr rfl)
    · intro x hx
      rw [hkeys]
      refine (hmemKeys x).mpr (Or.inl ⟨hk3 x hx, fun e => ?_⟩)
      subst e
      exact hdisj x hA hx
  · rw [if_neg hA]
    have hU : oldN ∈ s.entry.unapplied := by
      rcases hk1 oldN holdK with hx | hx
      · exact absurd hx hA
      · exact hx
    have hnewA : newN ∉ s.entry.applied := by
      rcases hfr with hf | rfl
      · exact fun hx => absurd (mapHas_iff.mpr (hk2 _ hx)) (by simp [hf])
      · exact hA
    have hmemU : ∀ x, x ∈ QueueState.replaceFirst s.entry.unapplied oldN newN ↔
        (x ∈ s.entry.unapplied ∧ x ≠ oldN) ∨ x = newN := fun x =>
      mem_replaceFirst hndU hU
    have hndU' : (QueueState.replaceFirst s.entry.unapplied oldN newN).Nodup := by
      rcases hfr with hf | rfl
      · exact nodup_replaceFirst hndU
          (fun hx => absurd (mapHas_iff.mpr (hk3 _ hx)) (by simp [hf]))
      · rw [replaceFirst_self]
        exact hndU
    refine ⟨⟨?_, ?_, ?_, ?_⟩, hndA, hndU', hkeys ▸ hndKeys'⟩
    · intro x hx
      rw [hmemU x]
      rintro (⟨hx', hne⟩ | rfl)
      · exact hdisj x hx hx'
      · exact hnewA hx
    · intro x hx
      rw [hkeys] at hx
      rcases (hmemKeys x).mp hx with ⟨hxk, hne⟩ | rfl
      · rcases hk1 x hxk with hx' | hx'
        · exact Or.inl hx'
        · exact Or.inr ((hmemU x).mpr (Or.inl ⟨hx', hne⟩))
      · exact Or.inr ((hmemU x).mpr (Or.inr rfl))
    · intro x hx
      rw [hkeys]
      refine (hmemKeys x).mpr (Or.inl ⟨hk2 x hx, fun e => ?_⟩)
      subst e
      exact hdisj x hx hU
    · intro x hx
      rw [hkeys]
      rcases (hmemU x).mp hx with ⟨hx', hne⟩ | rfl
      · exact (hmemKeys x).mpr (Or.inl ⟨hk3 x hx', hne⟩)
      · exact (hmemKeys x).mpr (Or.inr rfl)

/-- The state created by `QueueState::new` satisfies the partition invariant
(empty stacks, empty map). -/
theorem entryInv_new {repo : GitRepo} {q b : String} {r' : GitRepo} {s : QueueState}
    (h : QueueState.new repo q b = (r', Except.ok s)) : entryInv s.entry := by
  simp only [QueueState.new] at h
  split at h
  · exact absurd (congrArg Prod.snd h) (by simp)
  · split at h
    · exact absurd (congrArg Prod.snd h) (by simp)
    · split at h
      · exact absurd (congrArg Prod.snd h) (by simp)
      · split at h
        · exact absurd (congrArg Prod.snd h) (by simp)
        · have hs := congrArg Prod.snd h
          simp only [Except.ok.injEq] at hs
          rw [← hs]
          simp [entryInv, specInv]

/-! ### Claim C6 — the partition invariant -/

/-- Counterexample to claim C6: a state satisfying the full invariant (with
patch `a` applied and patch `b` unapplied) on which `rename_patch("a", "b")`
— whose only stated precondition, `has_patch("a")`, holds — produces a state
whose `applied` and `unapplied` both contain `b`: the partition invariant is
not preserved when the new name collides with an existing patch. -/
theorem c6_counterexample :
    entryInv (⟨"m", none, ⟨"aa"⟩, ⟨"00"⟩, "main", ["a"], ["b"],
      [("a", ⟨"aa"⟩), ("b", ⟨"bb"⟩)]⟩ : LogEntryV1)
    ∧ QueueState.has_patch
        ⟨none, "refs/queuelogs/q",
          ⟨"m", none, ⟨"aa"⟩, ⟨"00"⟩, "main", ["a"], ["b"],
            [("a", ⟨"aa"⟩), ("b", ⟨"bb"⟩)]⟩⟩ "a" = true
    ∧ ¬ specInv ((QueueState.rename_patch
        ⟨none, "refs/queuelogs/q",
          ⟨"m", none, ⟨"aa"⟩, ⟨"00"⟩, "main", ["a"], ["b"],
            [("a", ⟨"aa"⟩), ("b", ⟨"bb"⟩)]⟩⟩ "a" "b").entry) :=
  ⟨by decide, by decide, by decide⟩

/-- Amended claim C6: `new`, `push`, `pop` and `upsert_patch` preserve the
invariant that `applied` and `unapplied` are disjoint duplicate-free lists
whose union is the domain of `patches`; `rename_patch` preserves it provided
the new name is not an existing patch (or equals the old name) — renaming
onto an existing name merges two patches and breaks the partition. -/
theorem c6_partition_preservation :
    (∀ (repo : GitRepo) (q b : String) (r' : GitRepo) (s : QueueState),
        QueueState.new repo q b = (r', Except.ok s) → entryInv s.entry)
    ∧ (∀ s : QueueState, entryInv s.entry → entryInv s.push.entry)
    ∧ (∀ (s : QueueState) (gp : Oid → Except Error Oid) (s' : QueueState),
        entryInv s.entry → s.pop gp = Except.ok s' → entryInv s'.entry)
    ∧ (∀ (s : QueueState) (oldN newN : String), entryInv s.entry →
        s.has_patch oldN = true → (s.has_patch newN = false ∨ newN = oldN) →
        entryInv (s.rename_patch oldN newN).entry)
    ∧ (∀ (s : QueueState) (n : String) (c : Oid), entryInv s.entry →
        entryInv (s.upsert_patch n c).entry) :=
  ⟨fun _ _ _ _ _ h => entryInv_new h,
   fun _ hinv => entryInv_push hinv,
   fun _ _ _ hinv hpop => entryInv_pop hinv hpop,
   fun _ _ _ hinv hold hfresh => entryInv_rename hinv hold hfresh,
   fun _ n c hinv => entryInv_upsert hinv n c⟩

/-- Witness for the amended C6: the `push` conjunct applied at a concrete
one-patch state. -/
theorem c6_partition_preservation_witness :
    entryInv (QueueState.push
      ⟨none, "refs/queuelogs/q",
        ⟨"m", none, ⟨"00"⟩, ⟨"00"⟩, "main", [], ["a"], [("a", ⟨"aa"⟩)]⟩⟩).entry :=
  c6_partition_preservation.2.1 _ (by decide)

/-! ### Head-invariant preservation (for claim C5) -/

/-- The state created by `QueueState::new` has `head = base`. -/
theorem headInv_new {repo : GitRepo} {q b : String} {r' : GitRepo} {s : QueueState}
    (h : QueueState.new repo q b = (r', Except.ok s)) : headInv s.entry := by
  simp only [QueueState.new] at h
  split at h
  · exact absurd (congrArg Prod.snd h) (by simp)
  · split at h
    · exact absurd (congrArg Prod.snd h) (by simp)
    · split at h
      · exact absurd (congrArg Prod.snd h) (by simp)
      · split at h
        · exact absurd (congrArg Prod.snd h) (by simp)
        · have hs := congrArg Prod.snd h
          simp only [Except.ok.injEq] at hs
          rw [← hs]
          simp [headInv]

/-- `push` preserves the head invariant. -/
theorem headInv_push {s : QueueState} (hinv : entryInv s.entry)
    (hh : headInv s.entry) : headInv s.push.entry := by
  unfold QueueState.push
  cases hu : s.entry.unapplied.getLast? with
  | none => exact hh
  | some patch =>
    have hpU : patch ∈ s.entry.unapplied := mem_of_getLast?_eq hu
    have hpK : patch ∈ s.entry.patches.map Prod.fst := hinv.1.2.2.2 patch hpU
    have hsome : (mapLookup s.entry.patches patch).isSome = true :=
      mapLookup_isSome_iff.mpr hpK
    obtain ⟨v, hv⟩ : ∃ v, mapLookup s.entry.patches patch = some v := by
      cases hm : mapLookup s.entry.patches patch with
      | none => rw [hm] at hsome; simp at hsome
      | some v => exact ⟨v, rfl⟩
    unfold headInv
    simp only [List.getLast?_concat]
    rw [mapIndex_eq hv]
    exact hv

/-- `pop` preserves the head invariant provided the `get_parent` oracle
returns the state's base commit. -/
theorem headInv_pop {s : QueueState} {gp : Oid → Except Error Oid} {s' : QueueState}
    (hinv : entryInv s.entry) (hh : headInv s.entry)
    (horacle : ∀ o r, gp o = Except.ok r → r = s.entry.base)
    (hpop : s.pop gp = Except.ok s') : headInv s'.entry := by
  rcases List.eq_nil_or_concat s.entry.applied with hnil | ⟨l, p, hc⟩
  · unfold QueueState.pop at hpop
    rw [hnil] at hpop
    simp only [List.getLast?_nil] at hpop
    injection hpop with h
    exact h ▸ hh
  · have hl : s.entry.applied = l ++ [p] := by simpa using hc
    unfold QueueState.pop at hpop
    rw [hl, List.getLast?_concat] at hpop
    simp only [List.dropLast_concat] at hpop
    cases hd : l.getLast? with
    | some q =>
      rw [hd] at hpop
      injection hpop with h
      have hqA : q ∈ s.entry.applied := by
        rw [hl]
        exact List.mem_append_left _ (mem_of_getLast?_eq hd)
      have hqK : q ∈ s.entry.patches.map Prod.fst := hinv.1.2.2.1 q hqA
      obtain ⟨v, hv⟩ : ∃ v, mapLookup s.entry.patches q = some v := by
        have hsome := mapLookup_isSome_iff.mpr hqK
        cases hm : mapLookup s.entry.patches q with
        | none => rw [hm] at hsome; simp at hsome
        | some v => exact ⟨v, rfl⟩
      rw [← h]
      unfold headInv
      simp only [hd]
      rw [mapIndex_eq hv]
      exact hv
    | none =>
      rw [hd] at hpop
      cases hg : gp (mapIndex s.entry.patches p) with
      | error e =>
        rw [hg] at hpop
        exact absurd hpop (by simp [Bind.bind, Except.bind])
      | ok r =>
        rw [hg] at hpop
        simp only [Bind.bind, Except.bind, Except.ok.injEq] at hpop
        have hre : r = s.entry.base := horacle _ _ hg
        have hlnil : l = [] := List.getLast?_eq_none_iff.mp hd
        rw [← hpop]
        unfold headInv
        simp only [hlnil, List.getLast?_nil]
        exact hre

/-- `upsert_patch` preserves the head invariant provided the upserted commit
equals the current head whenever the patch is new or is the last applied
patch (in exactly those cases the head must denote the upserted commit, and
`upsert_patch` does not update the head). -/
theorem headInv_upsert {s : QueueState} {n : String} {c : Oid}
    (hinv : entryInv s.entry) (hh : headInv s.entry)
    (hcond : (¬ s.has_patch n = true ∨ s.entry.applied.getLast? = some n) →
      c = s.entry.head) :
    headInv (s.upsert_patch n c).entry := by
  unfold QueueState.upsert_patch
  by_cases h : s.has_patch n
  · rw [if_pos h]
    unfold headInv at hh ⊢
    cases hq : s.entry.applied.getLast? with
    | none =>
      rw [hq] at hh
      simp only [hq]
      exact hh
    | some q =>
      rw [hq] at hh
      simp only [hq]
      by_cases hqn : q = n
      · subst hqn
        rw [mapLookup_mapInsert, if_pos rfl]
        rw [hcond (Or.inr hq)]
      · rw [mapLookup_mapInsert, if_neg hqn]
        exact hh
  · rw [if_neg h]
    have hc : c = s.entry.head := hcond (Or.inl h)
    unfold headInv
    simp only [List.getLast?_concat]
    rw [mapLookup_mapInsert, if_pos rfl, hc]

/-- `rename_patch` preserves the head invariant under the same precondition
as the partition invariant. -/
theorem headInv_rename {s : QueueState} {oldN newN : String}
    (hinv : entryInv s.entry) (hh : headInv s.entry)
    (hold : s.has_patch oldN = true)
    (hfresh : s.has_patch newN = false ∨ newN = oldN) :
    headInv (s.rename_patch oldN newN).entry := by
  obtain ⟨⟨hdisj, hk1, hk2, hk3⟩, hndA, hndU, hndK⟩ := hinv
  have hold2 : mapHas s.entry.patches oldN = true := hold
  have hfr : mapHas s.entry.patches newN = false ∨ newN = oldN := hfresh
  have holdK : oldN ∈ s.entry.patches.map Prod.fst := mapHas_iff.mp hold2
  have hnewK : ∀ q, q ∈ s.entry.patches.map Prod.fst → q ≠ oldN → q ≠ newN := by
    intro q hq hqo
    rcases hfr with hf | rfl
    · intro he
      subst he
      exact absurd (mapHas_iff.mpr hq) (by simp [hf])
    · exact hqo
  have hlook' : ∀ q, q ≠ oldN → q ≠ newN →
      mapLookup (mapInsert (mapRemove s.entry.patches oldN) newN
        (mapIndex s.entry.patches oldN)) q = mapLookup s.entry.patches q := by
    intro q hqo hqn
    rw [mapLookup_mapInsert, if_neg hqn, mapLookup_mapRemove hndK, if_neg hqo]
  have hlookNew :
      mapLookup (mapInsert (mapRemove s.entry.patches oldN) newN
        (mapIndex s.entry.patches oldN)) newN = some (mapIndex s.entry.patches oldN) := by
    rw [mapLookup_mapInsert, if_pos rfl]
  unfold QueueState.rename_patch
  by_cases hA : oldN ∈ s.entry.applied
  · rw [if_pos hA]
    have hgl : (QueueState.replaceFirst s.entry.applied oldN newN).getLast? =
        if s.entry.applied.getLast? = some oldN then some newN
        else s.entry.applied.getLast? := getLast?_replaceFirst hndA hA
    cases hq : s.entry.applied.getLast? with
    | none => exact absurd (List.getLast?_eq_none_iff.mp hq ▸ hA) (by simp)
    | some q =>
      have hh' : mapLookup s.entry.patches q = some s.entry.head := by
        unfold headInv at hh
        rw [hq] at hh
        exact hh
      by_cases hqo : q = oldN
      · subst hqo
        unfold headInv
        rw [hgl, hq, if_pos rfl]
        show mapLookup (mapInsert (mapRemove s.entry.patches q) newN
          (mapIndex s.entry.patches q)) newN = some s.entry.head
        rw [hlookNew, mapIndex_eq hh']
      · unfold headInv
        rw [hgl, hq, if_neg (fun e : some q = some oldN => hqo (by injection e))]
        have hqK : q ∈ s.entry.patches.map Prod.fst :=
          hk2 q (mem_of_getLast?_eq hq)
        show mapLookup (mapInsert (mapRemove s.entry.patches oldN) newN
          (mapIndex s.entry.patches oldN)) q = some s.entry.head
        rw [hlook' q hqo (hnewK q hqK hqo)]
        exact hh'
  · rw [if_neg hA]
    unfold headInv at hh ⊢
    cases hq : s.entry.applied.getLast? with
    | none =>
      have hh0 : s.entry.head = s.entry.base := by rw [hq] at hh; exact hh
      exact hh0
    | some q =>
      have hh' : mapLookup s.entry.patches q = some s.entry.head := by
        rw [hq] at hh; exact hh
      have hqA : q ∈ s.entry.applied := mem_of_getLast?_eq hq
      have hqo : q ≠ oldN := fun e => hA (e ▸ hqA)
      have hqK : q ∈ s.entry.patches.map Prod.fst := hk2 q hqA
      show mapLookup (mapInsert (mapRemove s.entry.patches oldN) newN
        (mapIndex s.entry.patches oldN)) q = some s.entry.head
      rw [hlook' q hqo (hnewK q hqK hqo)]
      exact hh' 

/-- The `next` derivation copies `applied`, `head`, `base` and `patches`, so
it preserves the head invariant. -/
theorem headInv_next {s : QueueState} (hh : headInv s.entry) (msg : String) :
    headInv (s.next msg).entry :=
  hh

/-! ### Claim C5 — the head invariant -/

/-- Counterexample to claim C5: on the freshly initialized state (which
satisfies all §3 invariants), `upsert_patch("p", c)` with a commit `c`
different from the base appends `p` to `applied` but leaves `head`
untouched, so afterwards `head ≠ patches[last(applied)]`: invariant 3 does
not hold after every successful state operation. -/
theorem c5_counterexample :
    entryInv (⟨"m", none, ⟨"00"⟩, ⟨"00"⟩, "main", [], [], []⟩ : LogEntryV1)
    ∧ headInv (⟨"m", none, ⟨"00"⟩, ⟨"00"⟩, "main", [], [], []⟩ : LogEntryV1)
    ∧ ¬ headInv ((QueueState.upsert_patch
        ⟨none, "refs/queuelogs/q", ⟨"m", none, ⟨"00"⟩, ⟨"00"⟩, "main", [], [], []⟩⟩
        "p" ⟨"cc"⟩).entry) :=
  ⟨by decide, by decide, by decide⟩

/-- Amended claim C5: the head invariant — `head = base` when `applied` is
empty and `head = patches[last(applied)]` otherwise — holds after `new`, is
preserved by `push`, by the `next` derivation, by `pop` whenever the
`get_parent` oracle returns the state's base, by `rename_patch` under the
partition precondition, and by `upsert_patch` only when the upserted commit
equals the current head whenever the patch is new or is the last applied
patch (`upsert_patch` never updates `head`, which is what the
counterexample exploits). -/
theorem c5_head_invariant :
    (∀ (repo : GitRepo) (q b : String) (r' : GitRepo) (s : QueueState),
        QueueState.new repo q b = (r', Except.ok s) → headInv s.entry)
    ∧ (∀ s : QueueState, entryInv s.entry → headInv s.entry → headInv s.push.entry)
    ∧ (∀ (s : QueueState) (gp : Oid → Except Error Oid) (s' : QueueState),
        entryInv s.entry → headInv s.entry →
        (∀ o r, gp o = Except.ok r → r = s.entry.base) →
        s.pop gp = Except.ok s' → headInv s'.entry)
    ∧ (∀ (s : QueueState) (oldN newN : String), entryInv s.entry → headInv s.entry →
        s.has_patch oldN = true → (s.has_patch newN = false ∨ newN = oldN) →
        headInv (s.rename_patch oldN newN).entry)
    ∧ (∀ (s : QueueState) (n : String) (c : Oid), entryInv s.entry → headInv s.entry →
        ((¬ s.has_patch n = true ∨ s.entry.applied.getLast? = some n) →
          c = s.entry.head) →
        headInv (s.upsert_patch n c).entry)
    ∧ (∀ (s : QueueState) (msg : String), headInv s.entry →
        headInv (s.next msg).entry) :=
  ⟨fun _ _ _ _ _ h => headInv_new h,
   fun _ hinv hh => headInv_push hinv hh,
   fun _ _ _ hinv hh horacle hpop => headInv_pop hinv hh horacle hpop,
   fun _ _ _ hinv hh hold hfresh => headInv_rename hinv hh hold hfresh,
   fun _ _ _ hinv hh hcond => headInv_upsert hinv hh hcond,
   fun _ msg hh => headInv_next hh msg⟩

/-- Witness for the amended C5: the `push` conjunct at a concrete state. -/
theorem c5_head_invariant_witness :
    headInv (QueueState.push
      ⟨none, "refs/queuelogs/q",
        ⟨"m", none, ⟨"00"⟩, ⟨"00"⟩, "main", [], ["a"], [("a", ⟨"aa"⟩)]⟩⟩).entry :=
  c5_head_invariant.2.1 _ (by decide) (by decide)

/-! ### Claim C7 — behaviour of `pop` -/

/-- Claim C7: `pop(get_parent)` is a no-op on an empty `applied`; otherwise
it removes the last element of `applied`, appends it to the end of
`unapplied`, and sets the head to `patches[last(applied)]` when some patch
stays applied and to `get_parent` of the popped patch's commit otherwise —
so popping a single-element `applied` makes the head `get_parent(patch_oid)`. -/
theorem c7_pop_behaviour (s : QueueState) (gp : Oid → Except Error Oid) :
    (s.entry.applied = [] → s.pop gp = .ok s)
    ∧ (∀ l p, s.entry.applied = l ++ [p] →
        s.pop gp =
          match l.getLast? with
          | some q =>
            .ok { s with entry := { s.entry with
                    applied := l,
                    unapplied := s.entry.unapplied ++ [p],
                    head := mapIndex s.entry.patches q } }
          | none =>
            Except.map
              (fun h => { s with entry := { s.entry with
                            applied := l,
                            unapplied := s.entry.unapplied ++ [p],
                            head := h } })
              (gp (mapIndex s.entry.patches p))) := by
  constructor
  · intro h
    simp [QueueState.pop, h]
  · intro l p happ
    unfold QueueState.pop
    rw [happ, List.getLast?_concat]
    simp only [List.dropLast_concat]
    cases hl : l.getLast? with
    | some q => simp
    | none => simp [except_bind_ok]

/-- Witness for C7 at a concrete two-patch state: both the no-op branch (on
an emptied state) and the pop of the top patch evaluate as characterized. -/
theorem c7_pop_behaviour_witness :
    let st : QueueState :=
      ⟨none, "refs/queuelogs/q",
        ⟨"m", none, ⟨"bb"⟩, ⟨"00"⟩, "main", ["a", "b"], [],
          [("a", ⟨"aa"⟩), ("b", ⟨"bb"⟩)]⟩⟩
    st.pop (fun _ => .ok ⟨"00"⟩) =
      match ["a"].getLast? with
      | some q =>
        .ok { st with entry := { st.entry with
                applied := ["a"],
                unapplied := st.entry.unapplied ++ ["b"],
                head := mapIndex st.entry.patches q } }
      | none =>
        Except.map
          (fun h => { st with entry := { st.entry with
                        applied := ["a"],
                        unapplied := st.entry.unapplied ++ ["b"],
                        head := h } })
          ((fun _ => .ok ⟨"00"⟩) (mapIndex st.entry.patches "b")) :=
  (c7_pop_behaviour _ _).2 ["a"] "b" (by decide)

/-! ### Claim C3 — what the metadata codec accepts and rejects -/

theorem mapM_asString (l : List String) :
    mapExcept asString (l.map Json.str) = Except.ok l := by
  induction l with
  | nil => rfl
  | cons x xs ih =>
    simp [mapExcept, ih, asString, Bind.bind, Except.bind]

theorem mapM_asOidPairs (m : List (String × Oid)) (h : ∀ p ∈ m, wfOid p.2) :
    mapExcept asOidPair (m.map (fun p => (p.1, Json.str p.2.hex))) = Except.ok m := by
  induction m with
  | nil => rfl
  | cons x xs ih =>
    have hx : Oid.from_str x.2.hex = .ok x.2 := h x (by simp)
    have hxs : ∀ p ∈ xs, wfOid p.2 := fun p hp => h p (by simp [hp])
    simp only [List.map_cons, mapExcept, ih hxs]
    simp [asOidPair, asOid, asString, hx, Bind.bind, Except.bind]

set_option maxRecDepth 1000000 in
/-- Counterexample to claim C3.  First conjunct: a metadata blob carrying the
unknown field `"version": 2` — which the claim says must be rejected both as
an unknown field and as a wrong version — deserializes successfully: the
serde derive on `LogEntryV1` has no `deny_unknown_fields` guard and the
struct has no `version` field at all.  Second conjunct: a record shaped as
the spec's version-1 metadata record (a `version` key, no `message` field)
fails to decode, because the struct's required `message` field is missing —
so well-formed version-1 records in the spec's sense do not decode. -/
theorem c3_counterexample :
    fromSlice "\x7b\"message\":\"m\",\"version\":2,\"previous\":null,\"head\":\"aa\",\"base\":\"00\",\"base_name\":\"main\",\"applied\":[],\"unapplied\":[],\"patches\":\x7b\x7d\x7d"
      = .ok ⟨"m", none, ⟨⟨'a' :: 'a' :: List.replicate 38 '0'⟩⟩,
          ⟨⟨'0' :: '0' :: List.replicate 38 '0'⟩⟩, "main", [], [], []⟩
    ∧ (fromSlice "\x7b\"version\":1,\"previous\":null,\"head\":\"aa\",\"base\":\"00\",\"base_name\":\"main\",\"applied\":[],\"unapplied\":[],\"patches\":\x7b\x7d\x7d").isOk
        = false := by
  constructor
  · decide
  · decide

/-- Amended claim C3: deserialization requires exactly the struct's fields —
`message`, `head`, `base`, `base_name`, `applied`, `unapplied`, `patches`
present and well-typed, `previous` optional — and fails when any oid string
is not valid hex; unknown fields, including any `version` key, are ignored
rather than rejected (and no version check exists); blobs that are not
well-formed JSON fail at the parsing stage.  Stated here: a record in the
codec's own shape decodes back to itself, still does so with an unknown
`version` field added, and fails as soon as the `head` string is not a valid
hex object id; a non-JSON blob fails. -/
theorem c3_codec_behaviour (e : LogEntryV1) (hwf : wfEntry e) :
    decodeEntry (.obj (entryJsonFields e)) = .ok e
    ∧ decodeEntry (.obj (entryJsonFields e ++ [("version", Json.num 1)])) = .ok e
    ∧ (∀ s : String, ¬ (Oid.from_str s).isOk →
        ¬ (decodeEntry (.obj (entryJsonFieldsWith e (.str s)))).isOk)
    ∧ fromSlice "not json" = .error "invalid JSON" := by
  obtain ⟨hhead, hbase, hprev, hpatches⟩ := hwf
  have hh : Oid.from_str e.head.hex = Except.ok e.head := hhead
  have hb : Oid.from_str e.base.hex = Except.ok e.base := hbase
  refine ⟨?_, ?_, ?_, rfl⟩
  · rcases hp : e.previous with _ | o
    · simp [decodeEntry, entryJsonFields, entryJsonFieldsWith, knownKeys, countKey,
        jLookup, reqField, asStrList, asOidMap, mapM_asString, mapM_asOidPairs _ hpatches,
        hp, Bind.bind, Except.bind]
      simp [asOid, asString, hh, hb, Bind.bind, Except.bind, mapM_asString,
        mapM_asOidPairs _ hpatches]
      ext <;> simp [hp]
    · have hpo : Oid.from_str o.hex = Except.ok o := by rw [hp] at hprev; exact hprev
      simp [decodeEntry, entryJsonFields, entryJsonFieldsWith, knownKeys, countKey,
        jLookup, reqField, asStrList, asOidMap, mapM_asString, mapM_asOidPairs _ hpatches,
        hp, Bind.bind, Except.bind, asOid, asString, hpo, hh, hb]
      ext <;> simp [hp]
  · rcases hp : e.previous with _ | o
    · simp [decodeEntry, entryJsonFields, entryJsonFieldsWith, knownKeys, countKey,
        jLookup, reqField, asStrList, asOidMap, mapM_asString, mapM_asOidPairs _ hpatches,
        hp, Bind.bind, Except.bind]
      simp [asOid, asString, hh, hb, Bind.bind, Except.bind, mapM_asString,
        mapM_asOidPairs _ hpatches]
      ext <;> simp [hp]
    · have hpo : Oid.from_str o.hex = Except.ok o := by rw [hp] at hprev; exact hprev
      simp [decodeEntry, entryJsonFields, entryJsonFieldsWith, knownKeys, countKey,
        jLookup, reqField, asStrList, asOidMap, mapM_asString, mapM_asOidPairs _ hpatches,
        hp, Bind.bind, Except.bind, asOid, asString, hpo, hh, hb]
      ext <;> simp [hp]
  · intro s hs
    rcases hfs : Oid.from_str s with m | o2
    · rcases hp : e.previous with _ | o
      · simp only [decodeEntry, entryJsonFieldsWith, knownKeys, countKey, jLookup,
          reqField, hp]
        simp [asOid, asString, hfs, Bind.bind, Except.bind, Except.isOk, Except.toBool]
      · have hpo : Oid.from_str o.hex = Except.ok o := by rw [hp] at hprev; exact hprev
        simp only [decodeEntry, entryJsonFieldsWith, knownKeys, countKey, jLookup,
          reqField, hp]
        simp [asOid, asString, hfs, hpo, Bind.bind, Except.bind, Except.isOk, Except.toBool]
    · exact absurd (by simp [Except.isOk, Except.toBool, hfs]) hs

/-- Witness for the amended C3 at a concrete one-patch record. -/
theorem c3_codec_behaviour_witness :
    decodeEntry (.obj (entryJsonFields
      ⟨"m", none, ⟨⟨'a' :: 'a' :: List.replicate 38 '0'⟩⟩,
        ⟨⟨'0' :: '0' :: List.replicate 38 '0'⟩⟩, "main", [], [], []⟩))
      = .ok ⟨"m", none, ⟨⟨'a' :: 'a' :: List.replicate 38 '0'⟩⟩,
          ⟨⟨'0' :: '0' :: List.replicate 38 '0'⟩⟩, "main", [], [], []⟩ :=
  (c3_codec_behaviour _ (by decide)).1

/-! ### Claim C10 — `push` undoes `pop` -/

/-- Claim C10: on a state satisfying the §3 invariants with a non-empty
`applied`, a successful `pop` followed by `push` restores the state exactly
(all of `applied`, `unapplied`, `patches` and `head`), whatever the
`get_parent` oracle returned. -/
theorem c10_pop_push_roundtrip (s : QueueState) (gp : Oid → Except Error Oid)
    (s' : QueueState) (hinv : entryInv s.entry) (hhead : headInv s.entry)
    (hne : s.entry.applied ≠ []) (hpop : s.pop gp = .ok s') :
    s'.push = s := by
  rcases (List.eq_nil_or_concat s.entry.applied) with h | ⟨l, p, happ0⟩
  · exact absurd h hne
  have happ : s.entry.applied = l ++ [p] := by simpa using happ0
  have hlook : mapLookup s.entry.patches p = some s.entry.head :=
    headInv_concat hhead happ
  unfold QueueState.pop at hpop
  rw [happ, List.getLast?_concat] at hpop
  simp only [List.dropLast_concat] at hpop
  cases hl : l.getLast? with
  | some q =>
    rw [hl] at hpop
    simp only [Except.ok.injEq] at hpop
    subst hpop
    unfold QueueState.push
    simp only [List.getLast?_concat, List.dropLast_concat]
    ext <;> simp [mapIndex_eq hlook, happ]
  | none =>
    rw [hl] at hpop
    cases hgp : gp (mapIndex s.entry.patches p) with
    | error e => rw [hgp] at hpop; exact absurd hpop (by simp [Bind.bind, Except.bind])
    | ok h =>
      rw [hgp] at hpop
      simp only [Bind.bind, Except.bind, Except.ok.injEq] at hpop
      subst hpop
      unfold QueueState.push
      simp only [List.getLast?_concat, List.dropLast_concat]
      have hlnil : l = [] := List.getLast?_eq_none_iff.mp hl
      ext <;> simp [mapIndex_eq hlook, happ, hlnil]

/-! ### Claim C2 — determinism of metadata serialization -/

/-- Counterexample to claim C2: two equal metadata records — identical in
every field, with `patches` maps holding the same two bindings — whose
serializations differ, because the serializer emits the `patches` object in
the `HashMap`'s unspecified iteration order.  Equal states therefore need
not produce identical `meta` blobs. -/
theorem c2_counterexample :
    entryEquiv
      ⟨"m", none, ⟨"aa"⟩, ⟨"00"⟩, "main", ["a", "b"], [],
        [("a", ⟨"aa"⟩), ("b", ⟨"bb"⟩)]⟩
      ⟨"m", none, ⟨"aa"⟩, ⟨"00"⟩, "main", ["a", "b"], [],
        [("b", ⟨"bb"⟩), ("a", ⟨"aa"⟩)]⟩
    ∧ serializeEntry
        ⟨"m", none, ⟨"aa"⟩, ⟨"00"⟩, "main", ["a", "b"], [],
          [("a", ⟨"aa"⟩), ("b", ⟨"bb"⟩)]⟩
      ≠ serializeEntry
        ⟨"m", none, ⟨"aa"⟩, ⟨"00"⟩, "main", ["a", "b"], [],
          [("b", ⟨"bb"⟩), ("a", ⟨"aa"⟩)]⟩ := by
  constructor
  · refine ⟨rfl, rfl, rfl, rfl, rfl, rfl, rfl, ?_⟩
    exact List.Perm.swap _ _ []
  · decide

/-- Amended claim C2: serialization is a pure function of the record
together with the iteration order of its `patches` map — records that agree
field-wise and whose `patches` maps iterate identically (in particular, any
two equal records with at most one patch) serialize to identical bytes.
Only the order of the `patches` object can distinguish equal records. -/
theorem c2_serialization_deterministic (e1 e2 : LogEntryV1)
    (heq : entryEquiv e1 e2)
    (horder : e1.patches = e2.patches ∨ e1.patches.length ≤ 1) :
    serializeEntry e1 = serializeEntry e2 := by
  obtain ⟨h1, h2, h3, h4, h5, h6, h7, hperm⟩ := heq
  have hp : e1.patches = e2.patches := by
    rcases horder with h | hlen
    · exact h
    · match hm : e1.patches, hlen with
      | [], _ => rw [hm] at hperm; exact (List.perm_nil.mp hperm.symm).symm
      | [x], _ =>
        rw [hm] at hperm
        exact (List.singleton_perm).mp hperm
  simp [serializeEntry, h1, h2, h3, h4, h5, h6, h7, hp]

/-- Witness for the amended C2 at two structurally equal one-patch records. -/
theorem c2_serialization_deterministic_witness :
    serializeEntry ⟨"m", some ⟨"cc"⟩, ⟨"aa"⟩, ⟨"00"⟩, "main", ["a"], [], [("a", ⟨"aa"⟩)]⟩
      = serializeEntry ⟨"m", some ⟨"cc"⟩, ⟨"aa"⟩, ⟨"00"⟩, "main", ["a"], [], [("a", ⟨"aa"⟩)]⟩ :=
  c2_serialization_deterministic _ _ (by decide) (Or.inr (by decide))

/-- Witness for C10 on a one-patch state whose oracle returns the base. -/
theorem c10_pop_push_roundtrip_witness :
    let st : QueueState :=
      ⟨none, "refs/queuelogs/q",
        ⟨"m", none, ⟨"aa"⟩, ⟨"00"⟩, "main", ["a"], [], [("a", ⟨"aa"⟩)]⟩⟩
    QueueState.push
      ⟨none, "refs/queuelogs/q",
        ⟨"m", none, ⟨"00"⟩, ⟨"00"⟩, "main", [], ["a"], [("a", ⟨"aa"⟩)]⟩⟩ = st :=
  c10_pop_push_roundtrip _ (fun _ => .ok ⟨"00"⟩) _ (by decide) (by decide)
    (by decide) (by decide)

/-! ### Claim C8 — failure atomicity of `create_next` -/

/-- A failing `commit` never changes the reference store: every failure
happens either before any write or after writes that only extend the object
database. -/
theorem commit_error_refs {s : QueueState} {repo r1 : GitRepo} {e : Error}
    (h : s.commit repo = (r1, Except.error e)) : r1.refs = repo.refs := by
  unfold QueueState.commit at h
  split at h
  · injection h with h1 _
    exact (congrArg GitRepo.refs h1.symm).trans rfl
  · split at h
    · injection h with h1 _
      exact (congrArg GitRepo.refs h1.symm).trans rfl
    · split at h
      · injection h with h1 _
        exact (congrArg GitRepo.refs h1.symm).trans rfl
      · dsimp only at h
        split at h
        · injection h with h1 _
          exact (congrArg GitRepo.refs h1.symm).trans rfl
        · split at h
          · injection h with h1 _
            exact (congrArg GitRepo.refs h1.symm).trans rfl
          · exact absurd (congrArg Prod.snd h) (by simp)

/-- Claim C8: `create_next` is atomic with respect to failure — when the
caller's mutator or the commit creation fails, the reference store (in
particular the queue log reference) is exactly what it was before the call;
only the content-addressed object database may have grown.  (The original
committed state itself is unchanged by construction: `create_next` borrows
it immutably and derives a copy.) -/
theorem c8_create_next_atomic {T : Type} (repo : GitRepo) (s : QueueState)
    (msg : String) (f : QueueState → Except Error (QueueState × T))
    (r' : GitRepo) (e : Error)
    (h : s.create_next repo msg f = (r', Except.error e)) :
    r'.refs = repo.refs ∧
      refLookup r' s.gitref_name = refLookup repo s.gitref_name := by
  have hrefs : r'.refs = repo.refs := by
    unfold QueueState.create_next at h
    split at h
    · injection h with h1 _
      rw [← h1]
    · split at h
      · next r1 e2 heq =>
        injection h with h1 _
        rw [← h1]
        exact commit_error_refs heq
      · exact absurd (congrArg Prod.snd h) (by simp)
  exact ⟨hrefs, by rw [refLookup, refLookup, hrefs]⟩

/-- Witness for C8: on `exRepoC8` the mutator succeeds but commit creation
fails while resolving the repository `HEAD` (after the metadata blob and
tree were already written), and the reference store is untouched. -/
theorem c8_create_next_atomic_witness :
    (QueueState.create_next (T := Unit) exStateC8 exRepoC8 "next"
        (fun x => Except.ok (x, ()))).1.refs = exRepoC8.refs
    ∧ refLookup (QueueState.create_next (T := Unit) exStateC8 exRepoC8 "next"
        (fun x => Except.ok (x, ()))).1 exStateC8.gitref_name
      = refLookup exRepoC8 exStateC8.gitref_name :=
  c8_create_next_atomic exRepoC8 exStateC8 "next" (fun x => Except.ok (x, ()))
    _ (Error.Git GitErrorCode.unbornBranch) (by decide)

/-! ### Claim C1 — the parent set of log entry commits -/

theorem find?_append_some {α : Type} {p : α → Bool} {l1 : List α} (l2 : List α)
    {a : α} (h : l1.find? p = some a) : (l1 ++ l2).find? p = some a := by
  induction l1 with
  | nil => simp at h
  | cons x xs ih =>
    rw [List.cons_append]
    rcases hx : p x with _ | _
    · rw [List.find?_cons_of_neg _ (by simp [hx])] at h ⊢
      exact ih h
    · rw [List.find?_cons_of_pos _ hx] at h ⊢
      exact h

theorem findObj_addObject {r : GitRepo} {obj : Obj} {o : Oid} {v : Obj}
    (h : findObj r o = some v) : findObj (addObject r obj).1 o = some v := by
  unfold findObj at h ⊢
  rcases hf : r.objects.find? (fun p => p.1 == o) with _ | q
  · rw [hf] at h
    simp at h
  · rw [hf] at h
    show ((r.objects ++ [((⟨"!fresh-" ++ toString r.fresh⟩ : Oid), obj)]).find?
        (fun p => p.1 == o)).map (fun p => p.2) = some v
    rw [find?_append_some _ hf]
    exact h

theorem findCommitObj_addObject {r : GitRepo} {obj : Obj} {o : Oid} {c : CommitObj}
    (h : findCommitObj r o = Except.ok c) :
    findCommitObj (addObject r obj).1 o = Except.ok c := by
  unfold findCommitObj at h ⊢
  rcases hf : findObj r o with _ | v
  · rw [hf] at h
    simp at h
  · rw [hf] at h
    rw [findObj_addObject hf]
    exact h

theorem headCommit_addObject {r : GitRepo} {obj : Obj} {h : Oid}
    (hh : r.headCommit = Except.ok h) : (addObject r obj).1.headCommit = Except.ok h := by
  unfold GitRepo.headCommit at hh ⊢
  show (match r.headRef with
    | none => Except.error GitErrorCode.unbornBranch
    | some ref =>
      match refLookup (addObject r obj).1 ref with
      | none => Except.error GitErrorCode.unbornBranch
      | some o =>
        match findCommitObj (addObject r obj).1 o with
        | Except.ok _ => Except.ok o
        | Except.error e => Except.error e) = Except.ok h
  cases hr : r.headRef with
  | none =>
    rw [hr] at hh
    simp at hh
  | some ref =>
    rw [hr] at hh
    have hh2 : (match refLookup r ref with
      | none => Except.error GitErrorCode.unbornBranch
      | some o =>
        match findCommitObj r o with
        | Except.ok _ => Except.ok o
        | Except.error e => Except.error e) = Except.ok h := hh
    show (match refLookup (addObject r obj).1 ref with
      | none => Except.error GitErrorCode.unbornBranch
      | some o =>
        match findCommitObj (addObject r obj).1 o with
        | Except.ok _ => Except.ok o
        | Except.error e => Except.error e) = Except.ok h
    have hrl : refLookup (addObject r obj).1 ref = refLookup r ref := rfl
    rw [hrl]
    cases hl : refLookup r ref with
    | none =>
      rw [hl] at hh2
      simp at hh2
    | some o =>
      rw [hl] at hh2
      have hh3 : (match findCommitObj r o with
        | Except.ok _ => Except.ok o
        | Except.error e => Except.error e) = Except.ok h := hh2
      show (match findCommitObj (addObject r obj).1 o with
        | Except.ok _ => Except.ok o
        | Except.error e => Except.error e) = Except.ok h
      cases hfc : findCommitObj r o with
      | error e =>
        rw [hfc] at hh3
        simp at hh3
      | ok c =>
        rw [hfc] at hh3
        rw [findCommitObj_addObject hfc]
        exact hh3

/-- Characterization of a successful `commit`: the freshly written log entry
commit is the last object written, its parents are the previous entry, the
repository `HEAD` commit, then every patch commit in map order, and the
queue log reference now points at it. -/
theorem commit_ok_spec {s : QueueState} {repo r' : GitRepo} {s' : QueueState}
    {prevOid hOid : Oid}
    (hprev : s.entry.previous = some prevOid)
    (hhead : repo.headCommit = Except.ok hOid)
    (h : s.commit repo = (r', Except.ok s')) :
    ∃ cOid treeOid,
      s'.oid = some cOid
      ∧ r'.objects.getLast? = some (cOid,
          Obj.commit ⟨treeOid, prevOid :: hOid :: s.entry.patches.map (·.2),
            s.entry.message⟩)
      ∧ refLookup r' s.gitref_name = some cOid := by
  unfold QueueState.commit at h
  simp only [hprev] at h
  cases hfc : findCommitObj repo prevOid with
  | error e =>
    simp only [hfc] at h
    exact absurd (congrArg Prod.snd h) (by simp)
  | ok prevC =>
    simp only [hfc] at h
    cases hft : findTreeObj repo prevC.tree with
    | error e =>
      simp only [hft] at h
      exact absurd (congrArg Prod.snd h) (by simp)
    | ok prevTree =>
      simp only [hft] at h
      try dsimp only at h
      have hb : (s.entry.build_tree repo prevTree).1.headCommit = Except.ok hOid :=
        headCommit_addObject (headCommit_addObject hhead)
      rw [hb] at h
      cases hpm : (s.entry.patches.map (·.2)).mapM
          (findCommitObj (s.entry.build_tree repo prevTree).1) with
      | error e =>
        simp only [hpm] at h
        exact absurd (congrArg Prod.snd h) (by simp)
      | ok found =>
        simp only [hpm] at h
        try dsimp only at h
        injection h with h1 h2
        injection h2 with h2
        refine ⟨((s.entry.build_tree repo prevTree).1.writeCommit s.gitref_name
            s.entry.message (s.entry.build_tree repo prevTree).2
            (prevOid :: hOid :: s.entry.patches.map (·.2))).2,
          (s.entry.build_tree repo prevTree).2, ?_, ?_, ?_⟩
        · rw [← h2]
        · rw [← h1]
          simp [GitRepo.writeCommit, refSet, addObject]
        · rw [← h1]
          simp [GitRepo.writeCommit, refSet, refLookup, addObject, mapLookup_mapInsert]

/-- Characterization of a successful `new`: the initial entry commit is the
last object written, its only parent is the base branch's tip, the entry has
no previous pointer and `head = base = tip`, and the queue log reference
points at the new commit. -/
theorem new_ok_spec {repo r' : GitRepo} {q b : String} {s : QueueState} {baseOid : Oid}
    (hbase : refLookup repo ("refs/heads/" ++ b) = some baseOid)
    (h : QueueState.new repo q b = (r', Except.ok s)) :
    ∃ cOid treeOid,
      s.oid = some cOid
      ∧ s.entry.previous = none
      ∧ s.entry.head = baseOid
      ∧ s.entry.base = baseOid
      ∧ s.entry.patches = []
      ∧ r'.objects.getLast? = some (cOid,
          Obj.commit ⟨treeOid, [baseOid], "initialise stack log"⟩)
      ∧ refLookup r' (QueueState.gitrefName q) = some cOid := by
  unfold QueueState.new at h
  by_cases h1 : (refLookup repo (QueueState.gitrefName q)).isSome
  · rw [if_pos h1] at h
    exact absurd (congrArg Prod.snd h) (by simp)
  · rw [if_neg h1] at h
    simp only [hbase] at h
    cases h3 : findCommitObj repo baseOid with
    | error e =>
      simp only [h3] at h
      exact absurd (congrArg Prod.snd h) (by simp)
    | ok baseC =>
      simp only [h3] at h
      cases h4 : findTreeObj repo baseC.tree with
      | error e =>
        simp only [h4] at h
        exact absurd (congrArg Prod.snd h) (by simp)
      | ok baseTree =>
        simp only [h4] at h
        try dsimp only at h
        injection h with hr hs
        injection hs with hs
        rw [← hs]
        refine ⟨_, ((⟨"initialise stack log", none, baseOid, baseOid, b, [], [], []⟩ :
          LogEntryV1).build_tree repo baseTree).2, rfl, rfl, rfl, rfl, rfl, ?_, ?_⟩
        · rw [← hr]
          simp [GitRepo.writeCommit, refSet, addObject]
        · rw [← hr]
          simp [GitRepo.writeCommit, refSet, refLookup, addObject, mapLookup_mapInsert]

/-- Counterexample to claim C1: a state whose queue head is the applied
patch commit `66` while the repository `HEAD` is the unrelated commit `44`.
The written log entry's parents are previous entry, repository `HEAD`, then
the patches — `[22, 44, 66]` — and not previous entry, queue head, patches
as the claim states (that would be `[22, 66, 66]`). -/
theorem c1_counterexample :
    (exStateC1.commit exRepoC1).2 =
      Except.ok { exStateC1 with oid := some ⟨"!fresh-2"⟩ }
    ∧ (exStateC1.commit exRepoC1).1.objects.getLast? =
        some (⟨"!fresh-2"⟩,
          Obj.commit ⟨⟨"!fresh-1"⟩, [⟨"22"⟩, ⟨"44"⟩, ⟨"66"⟩], "m"⟩)
    ∧ exStateC1.entry.head = ⟨"66"⟩
    ∧ ¬ ((⟨"44"⟩ : Oid) = exStateC1.entry.head) := by
  refine ⟨by decide, by decide, by decide, by decide⟩

/-- Amended claim C1: a log entry commit's parents are, in order, (1) the
previous log entry commit — present iff the entry is not the initial one —
(2) the *repository `HEAD`* commit at the moment of entry creation (the
queue head only coincidentally, e.g. for the initial entry, whose single
parent is the base = head commit), and (3) every patch commit (applied and
unapplied) in the iteration order of the patches map. -/
theorem c1_log_entry_parents :
    (∀ (repo : GitRepo) (s : QueueState) (prevOid hOid : Oid) (r' : GitRepo)
        (s' : QueueState),
      s.entry.previous = some prevOid →
      repo.headCommit = Except.ok hOid →
      s.commit repo = (r', Except.ok s') →
      ∃ cOid treeOid,
        s'.oid = some cOid
        ∧ r'.objects.getLast? = some (cOid,
            Obj.commit ⟨treeOid, prevOid :: hOid :: s.entry.patches.map (·.2),
              s.entry.message⟩)
        ∧ refLookup r' s.gitref_name = some cOid)
    ∧ (∀ (repo r' : GitRepo) (q b : String) (s : QueueState) (baseOid : Oid),
      refLookup repo ("refs/heads/" ++ b) = some baseOid →
      QueueState.new repo q b = (r', Except.ok s) →
      ∃ cOid treeOid,
        s.oid = some cOid
        ∧ s.entry.previous = none
        ∧ s.entry.head = baseOid
        ∧ s.entry.base = baseOid
        ∧ s.entry.patches = []
        ∧ r'.objects.getLast? = some (cOid,
            Obj.commit ⟨treeOid, [baseOid], "initialise stack log"⟩)
        ∧ refLookup r' (QueueState.gitrefName q) = some cOid) :=
  ⟨fun _ _ _ _ _ _ hprev hhead h => commit_ok_spec hprev hhead h,
   fun _ _ _ _ _ _ hbase h => new_ok_spec hbase h⟩

/-- Witness for the amended C1 at the concrete repository `exRepoC1`. -/
theorem c1_log_entry_parents_witness :
    ∃ cOid treeOid,
      ({ exStateC1 with oid := some ⟨"!fresh-2"⟩ } : QueueState).oid = some cOid
      ∧ (exStateC1.commit exRepoC1).1.objects.getLast? = some (cOid,
          Obj.commit ⟨treeOid, ⟨"22"⟩ :: ⟨"44"⟩ :: exStateC1.entry.patches.map (·.2),
            exStateC1.entry.message⟩)
      ∧ refLookup (exStateC1.commit exRepoC1).1 exStateC1.gitref_name = some cOid :=
  c1_log_entry_parents.1 exRepoC1 exStateC1 ⟨"22"⟩ ⟨"44"⟩
    (exStateC1.commit exRepoC1).1 { exStateC1 with oid := some ⟨"!fresh-2"⟩ }
    (by decide) (by decide) (by decide)

/-! ### Claim C4 — queue branch present, queue log missing -/

theorem splitChar_no_sep {sep : Char} {l : List Char} (h : ∀ c ∈ l, c ≠ sep) :
    splitChar sep l = [l] := by
  induction l with
  | nil => rfl
  | cons x xs ih =>
    have hx : x ≠ sep := h x (by simp)
    have hxs : ∀ c ∈ xs, c ≠ sep := fun c hc => h c (by simp [hc])
    unfold splitChar
    rw [ih hxs, if_neg hx]

theorem splitSlashSecond_queues {q : String} (hq : ∀ c ∈ q.data, c ≠ '/') :
    splitSlashSecond ("queues/" ++ q) = q := by
  unfold splitSlashSecond
  have hd : ("queues/" ++ q).data = 'q' :: 'u' :: 'e' :: 'u' :: 'e' :: 's' :: '/' :: q.data :=
    rfl
  rw [hd]
  rw [splitChar, splitChar, splitChar, splitChar, splitChar, splitChar, splitChar,
    splitChar_no_sep hq]
  rfl

/-- Counterexample to claim C4: a repository whose branch
`refs/heads/queues/w` exists while `refs/queuelogs/w` does not.
`for_queue` propagates the raw Git NotFound error from
`current_for_queue`'s `find_reference` (it is outside the
`maybe_inconsistent` closure) instead of the claimed `Inconsistency`, and
the `list` item for the branch is that same Git error, not
`Inconsistency("queuelog")`. -/
theorem c4_counterexample :
    Queue.for_queue exRepoC4 "w" = Except.error (Error.Git GitErrorCode.notFound)
    ∧ Queue.for_queue exRepoC4 "w" ≠ Except.error (Error.Inconsistency "queuelog")
    ∧ Queue.list exRepoC4 = [Except.error (Error.Git GitErrorCode.notFound)]
    ∧ Queue.list exRepoC4 ≠ [Except.error (Error.Inconsistency "queuelog")] := by
  refine ⟨by decide, by decide, by decide, by decide⟩

/-- Amended claim C4: when the queue branch exists but the queue log
reference is missing, `for_queue` fails with the pass-through Git NotFound
error (`Error::Git`, code NotFound), and the item `list` yields for that
branch is that same error; `Inconsistency("queuelog")` would only be
produced if `for_queue` itself returned *none*, which cannot happen for a
branch that exists.  (`Inconsistency("queuelog reference")` is reserved for
failures while reading an existing log tip.) -/
theorem c4_missing_queuelog (repo : GitRepo) (q : String) (b : Oid)
    (hbranch : refLookup repo ("refs/heads/queues/" ++ q) = some b)
    (hlog : refLookup repo ("refs/queuelogs/" ++ q) = none)
    (hq : ∀ c ∈ q.data, c ≠ '/') :
    Queue.for_queue repo q = Except.error (Error.Git GitErrorCode.notFound)
    ∧ Queue.listItem repo ("refs/heads/queues/" ++ q) =
        some (Except.error (Error.Git GitErrorCode.notFound)) := by
  have hcur : QueueState.current_for_queue repo q =
      Except.error (Error.Git GitErrorCode.notFound) := by
    unfold QueueState.current_for_queue
    have hgr : QueueState.gitrefName q = "refs/queuelogs/" ++ q := rfl
    rw [hgr]
    dsimp only
    rw [hlog]
  have hfq : Queue.for_queue repo q = Except.error (Error.Git GitErrorCode.notFound) := by
    unfold Queue.for_queue
    rw [hbranch, hcur]
  refine ⟨hfq, ?_⟩
  unfold Queue.listItem
  have hdrop : strDrop ("refs/heads/queues/" ++ q) 11 = "queues/" ++ q := rfl
  rw [hdrop]
  have hst : strStarts ("queues/" ++ q) "queues/" = true := by
    show ("queues/".data.isPrefixOf (("queues/" ++ q).data)) = true
    rw [List.isPrefixOf_iff_prefix]
    show "queues/".data <+: "queues/".data ++ q.data
    exact List.prefix_append _ _
  rw [if_pos hst, splitSlashSecond_queues hq, hfq]

/-- Witness for the amended C4 at the concrete repository `exRepoC4`. -/
theorem c4_missing_queuelog_witness :
    Queue.for_queue exRepoC4 "w" = Except.error (Error.Git GitErrorCode.notFound)
    ∧ Queue.listItem exRepoC4 "refs/heads/queues/w" =
        some (Except.error (Error.Git GitErrorCode.notFound)) :=
  c4_missing_queuelog exRepoC4 "w" ⟨"44"⟩ (by decide) (by decide) (by decide)

/-! ### Claim C9 — selecting the current queue from the current branch -/

/-- Counterexample to claim C9: with `HEAD` on the branch whose short name
is `my-queues/x` — which does not *begin* with `queues/` — the claim says
`current` returns none; instead `split_once` matches the `queues/`
substring in the middle, the suffix `x` is delegated to `for_queue`, and
here that surfaces an error for the inconsistent queue `x`. -/
theorem c9_counterexample :
    Queue.current exRepoC9 = Except.error (Error.Git GitErrorCode.notFound)
    ∧ Queue.current exRepoC9 ≠ Except.ok none := by
  refine ⟨by decide, by decide⟩

/-- Amended claim C9: `current` returns none when there is no current
branch; when the current branch's short name *contains* `queues/` anywhere
(`split_once`, not a prefix test), it takes the suffix after the first
occurrence as the queue name and delegates to `for_queue`; only a short
name not containing `queues/` at all returns none. -/
theorem c9_current_delegation :
    (∀ repo : GitRepo, repo.headRef = none → Queue.current repo = Except.ok none)
    ∧ (∀ (repo : GitRepo) (r pre qn : String), repo.headRef = some r →
        strStarts r "refs/heads/" = true →
        splitOnce (strDrop r 11) "queues/" = some (pre, qn) →
        Queue.current repo = Queue.for_queue repo qn)
    ∧ (∀ (repo : GitRepo) (r : String), repo.headRef = some r →
        strStarts r "refs/heads/" = true →
        splitOnce (strDrop r 11) "queues/" = none →
        Queue.current repo = Except.ok none) := by
  refine ⟨?_, ?_, ?_⟩
  · intro repo h
    unfold Queue.current Queue.current_branch
    rw [h]
  · intro repo r pre qn href hstart hsplit
    unfold Queue.current Queue.current_branch
    rw [href]
    show (match (if strStarts r "refs/heads/" = true then Except.ok (some r)
        else Except.error (Error.Git GitErrorCode.invalid)) with
      | Except.error e => Except.error e
      | Except.ok none => Except.ok none
      | Except.ok (some fullref) =>
        match splitOnce (strDrop fullref 11) "queues/" with
        | some pq => Queue.for_queue repo pq.2
        | none => Except.ok none) = Queue.for_queue repo qn
    rw [if_pos hstart]
    show (match splitOnce (strDrop r 11) "queues/" with
      | some pq => Queue.for_queue repo pq.2
      | none => Except.ok none) = Queue.for_queue repo qn
    rw [hsplit]
  · intro repo r href hstart hsplit
    unfold Queue.current Queue.current_branch
    rw [href]
    show (match (if strStarts r "refs/heads/" = true then Except.ok (some r)
        else Except.error (Error.Git GitErrorCode.invalid)) with
      | Except.error e => Except.error e
      | Except.ok none => Except.ok none
      | Except.ok (some fullref) =>
        match splitOnce (strDrop fullref 11) "queues/" with
        | some pq => Queue.for_queue repo pq.2
        | none => Except.ok none) = Except.ok none
    rw [if_pos hstart]
    show (match splitOnce (strDrop r 11) "queues/" with
      | some pq => Queue.for_queue repo pq.2
      | none => Except.ok none) = Except.ok none
    rw [hsplit]

/-- Witness for the amended C9: on `exRepoC9` the branch short name
`my-queues/x` delegates to `for_queue` on `x`. -/
theorem c9_current_delegation_witness :
    Queue.current exRepoC9 = Queue.for_queue exRepoC9 "x" :=
  c9_current_delegation.2.1 exRepoC9 "refs/heads/my-queues/x" "my-" "x"
    (by decide) (by decide) (by decide)

end GitQueue
